import Mathlib

/-!
Verification development for the REVERIE batched navigation environment
(`map_nav_src/reverie/env.py`).

Modelling conventions:
* Python floats are modelled as rationals (`ℚ`); all arithmetic in the
  claims is exact, so no rounding behaviour is relied upon.
* `np.sqrt(x)` appears only inside strict comparisons and equalities of
  nonnegative quantities, where it is strictly monotone and injective, so
  angular distances and edge weights are represented by their squares
  (`relHeading^2 + relElevation^2`, squared Euclidean distance).
* `math.radians(30)` is an arbitrary fixed constant; it is carried as a
  parameter `rad30` since no claim depends on its numeric value.
* Python dicts are modelled as insertion-ordered association lists;
  updating an existing key keeps its position, a new key is appended,
  exactly as CPython dicts behave.
* Fatal errors (assertion failures, IndexError/KeyError on required data)
  are modelled by `Option`/`Except` results, `none`/`.error` meaning the
  call dies.
-/

/-! ### Association-list model of Python dicts -/

/-- Lookup in an insertion-ordered association list (Python `d[k]` / `k in d`). -/
def lookupA {κ α : Type} [DecidableEq κ] : List (κ × α) → κ → Option α
  | [], _ => none
  | (k, v) :: rest, key => if k = key then some v else lookupA rest key

/-- Python dict assignment `d[k] = v`: overwrite in place if the key exists
(keeping its insertion position), otherwise append at the end. -/
def updateA {κ α : Type} [DecidableEq κ] : List (κ × α) → κ → α → List (κ × α)
  | [], key, v => [(key, v)]
  | (k, w) :: rest, key, v =>
    if k = key then (key, v) :: rest else (k, w) :: updateA rest key v

theorem lookupA_updateA {κ α : Type} [DecidableEq κ] (g : List (κ × α)) (k : κ) (v : α)
    (k2 : κ) : lookupA (updateA g k v) k2 = if k = k2 then some v else lookupA g k2 := by
  induction g with
  | nil => simp [updateA, lookupA]
  | cons hd tl ih =>
    obtain ⟨k0, v0⟩ := hd
    by_cases h0 : k0 = k
    · subst h0
      simp only [updateA, if_pos rfl, lookupA]
      by_cases h2 : k0 = k2 <;> simp [h2]
    · simp only [updateA, if_neg h0, lookupA]
      by_cases h2 : k0 = k2
      · subst h2
        have : ¬ k = k0 := fun h => h0 h.symm
        simp [this]
      · simp [h2, ih]

theorem mem_updateA {κ α : Type} [DecidableEq κ] (g : List (κ × α)) (k : κ) (v : α)
    (kv : κ × α) (h : kv ∈ updateA g k v) : kv ∈ g ∨ kv = (k, v) := by
  induction g with
  | nil => simp [updateA] at h; right; exact h
  | cons hd tl ih =>
    obtain ⟨k0, v0⟩ := hd
    by_cases h0 : k0 = k
    · subst h0
      simp only [updateA, if_pos rfl] at h
      rcases List.mem_cons.1 h with h | h
      · right; exact h
      · left; exact List.mem_cons_of_mem _ h
    · simp only [updateA, if_neg h0] at h
      rcases List.mem_cons.1 h with h | h
      · left; exact h ▸ List.mem_cons_self _ _
      · rcases ih h with h | h
        · left; exact List.mem_cons_of_mem _ h
        · right; exact h

/-- Keys of `updateA`: unchanged if the key was present, appended otherwise. -/
theorem keys_updateA {κ α : Type} [DecidableEq κ] (g : List (κ × α)) (k : κ) (v : α) :
    (updateA g k v).map Prod.fst =
      if (lookupA g k).isSome then g.map Prod.fst else g.map Prod.fst ++ [k] := by
  induction g with
  | nil => simp [updateA, lookupA]
  | cons hd tl ih =>
    obtain ⟨k0, v0⟩ := hd
    by_cases h0 : k0 = k
    · subst h0
      simp [updateA, lookupA]
    · simp only [updateA, lookupA, if_neg h0, List.map_cons]
      rw [ih]
      by_cases hs : (lookupA tl k).isSome = true
      · rw [if_pos hs, if_pos hs]
      · rw [if_neg hs, if_neg hs, List.cons_append]

/-! ### Evaluator: `_eval_item` (env.py lines 419-442) -/

/-- Sum of shortest-graph distances over consecutive pairs of a path:
`np.sum([shortest_distances[a][b] for a, b in zip(path[:-1], path[1:])])`.
`sd` is the scan's shortest-distance table (an external read-only input). -/
def pathCost (sd : String → String → ℚ) (p : List String) : ℚ :=
  ((p.zip p.tail).map fun ab => sd ab.1 ab.2).sum

/-- Python `str(...)` applied to an optional object id (`str(None) = "None"`). -/
def pyStr : Option String → String
  | none => "None"
  | some s => s

/-- The scores dict built by `_eval_item`. -/
structure Scores where
  action_steps : ℤ
  trajectory_steps : ℤ
  trajectory_lengths : ℚ
  success : ℚ
  oracle_success : ℚ
  spl : ℚ
  rgs : Bool
  rgspl : ℚ
deriving DecidableEq

/-- Embedding of `_eval_item`. `pred_path` is a list of path segments, flattened
by `sum(pred_path, [])`. `obj2vps` maps a `"scan_objid"` key to the list of
viewpoints from which the object is visible (the Python `set(...)` only enters
through emptiness and membership tests, so the list suffices). A `none` result
models a fatal error: the start-anchoring assertion, the non-empty
goal-viewpoint assertion, or the IndexError from `path[0]`/`gt_path[0]` on an
empty list. -/
def eval_item (sd : String → String → ℚ) (scan : String)
    (pred_path : List (List String)) (pred_objid : Option String)
    (gt_path : List String) (gt_objid : Option String)
    (obj2vps : String → List String) : Option Scores :=
  match pred_path.flatten, gt_path with
  | p0 :: prest, g0 :: grest =>
    if g0 = p0 then
      let traj := pathCost sd (p0 :: prest)
      let gtLen := pathCost sd (g0 :: grest)
      let goal_viewpoints := obj2vps (scan ++ "_" ++ pyStr gt_objid)
      if 0 < goal_viewpoints.length then
        let success : ℚ :=
          if (p0 :: prest).getLast (List.cons_ne_nil p0 prest) ∈ goal_viewpoints then 1 else 0
        let oracle : ℚ := if ∃ x ∈ p0 :: prest, x ∈ goal_viewpoints then 1 else 0
        let rgsB : Bool := pyStr pred_objid = pyStr gt_objid
        some { action_steps := (pred_path.length : ℤ) - 1
               trajectory_steps := ((p0 :: prest).length : ℤ) - 1
               trajectory_lengths := traj
               success := success
               oracle_success := oracle
               spl := success * gtLen / max (max traj gtLen) 0.01
               rgs := rgsB
               rgspl := (if rgsB then (1 : ℚ) else 0) * gtLen / max (max traj gtLen) 0.01 }
      else none
    else none
  | _, _ => none

/-- C5: inside `_eval_item` the SPL score is
`success * gtLength / max(trajectoryLength, gtLength, 0.01)`; it is `0`
whenever `success = 0`, and `0` whenever the ground-truth length is `0`
(in particular for `gt = 0`, `traj = 0`, `success = 1` the `0.01` floor
makes the quotient `0` rather than a division error). -/
theorem c5_spl_formula (sd : String → String → ℚ) (scan : String)
    (pred_path : List (List String)) (pred_objid : Option String)
    (gt_path : List String) (gt_objid : Option String)
    (obj2vps : String → List String) (s : Scores)
    (h : eval_item sd scan pred_path pred_objid gt_path gt_objid obj2vps = some s) :
    s.spl = s.success * pathCost sd gt_path /
        max (max s.trajectory_lengths (pathCost sd gt_path)) 0.01
      ∧ (s.success = 0 → s.spl = 0)
      ∧ (pathCost sd gt_path = 0 → s.spl = 0) := by
  unfold eval_item at h
  cases hp : pred_path.flatten with
  | nil => rw [hp] at h; cases h
  | cons p0 prest =>
    cases hg : gt_path with
    | nil => rw [hp, hg] at h; cases h
    | cons g0 grest =>
      rw [hp, hg] at h
      dsimp only at h
      by_cases h1 : g0 = p0
      · rw [if_pos h1] at h
        by_cases h2 : 0 < (obj2vps (scan ++ "_" ++ pyStr gt_objid)).length
        · rw [if_pos h2] at h
          obtain rfl : _ = s := Option.some.inj h
          refine ⟨rfl, fun hz => ?_, fun hz => ?_⟩
          · dsimp only at hz ⊢
            rw [hz, zero_mul, zero_div]
          · dsimp only
            rw [hz, mul_zero, zero_div]
        · rw [if_neg h2] at h; cases h
      · rw [if_neg h1] at h; cases h

/-- Witness for C5 at a concrete scoring call. -/
theorem c5_spl_formula_witness :
    eval_item (fun _ _ => 1) "sc" [["A", "B"]] (some "7") ["A", "B"] (some "7")
        (fun _ => ["B"]) = some ⟨0, 1, 1, 1, 1, 1, true, 1⟩
      ∧ ((⟨0, 1, 1, 1, 1, 1, true, 1⟩ : Scores).spl =
            (⟨0, 1, 1, 1, 1, 1, true, 1⟩ : Scores).success *
              pathCost (fun _ _ => 1) ["A", "B"] /
              max (max (⟨0, 1, 1, 1, 1, 1, true, 1⟩ : Scores).trajectory_lengths
                (pathCost (fun _ _ => 1) ["A", "B"])) 0.01
          ∧ ((⟨0, 1, 1, 1, 1, 1, true, 1⟩ : Scores).success = 0 →
              (⟨0, 1, 1, 1, 1, 1, true, 1⟩ : Scores).spl = 0)
          ∧ (pathCost (fun _ _ => 1) ["A", "B"] = 0 →
              (⟨0, 1, 1, 1, 1, 1, true, 1⟩ : Scores).spl = 0)) :=
  ⟨by with_unfolding_all rfl,
    c5_spl_formula (fun _ _ => 1) "sc" [["A", "B"]] (some "7") ["A", "B"]
      (some "7") (fun _ => ["B"]) ⟨0, 1, 1, 1, 1, 1, true, 1⟩ (by with_unfolding_all rfl)⟩

/-- C6: `_eval_item` dies (assertion / fatal index error) exactly when the
flattened predicted path is not anchored at the first ground-truth viewpoint
or the goal object's viewpoint set is empty; whenever the flattened path is
anchored at `gt_path[0]` and the goal-viewpoint set is non-empty, scoring
returns a result. -/
theorem c6_fatal_iff (sd : String → String → ℚ) (scan : String)
    (pred_path : List (List String)) (pred_objid : Option String)
    (gt_path : List String) (gt_objid : Option String)
    (obj2vps : String → List String) :
    (eval_item sd scan pred_path pred_objid gt_path gt_objid obj2vps).isSome ↔
      ((∃ v, pred_path.flatten.head? = some v ∧ gt_path.head? = some v)
        ∧ obj2vps (scan ++ "_" ++ pyStr gt_objid) ≠ []) := by
  unfold eval_item
  cases hp : pred_path.flatten with
  | nil => simp
  | cons p0 prest =>
    cases hg : gt_path with
    | nil => simp
    | cons g0 grest =>
      dsimp only
      by_cases h1 : g0 = p0
      · subst h1
        rw [if_pos rfl]
        by_cases h2 : 0 < (obj2vps (scan ++ "_" ++ pyStr gt_objid)).length
        · rw [if_pos h2]
          simp only [Option.isSome_some, true_iff, List.head?_cons]
          exact ⟨⟨g0, rfl, rfl⟩, List.ne_nil_of_length_pos h2⟩
        · rw [if_neg h2]
          simp only [Option.isSome_none, Bool.false_eq_true, false_iff, not_and, ne_eq, not_not]
          intro _
          exact List.eq_nil_of_length_eq_zero (Nat.eq_zero_of_not_pos h2)
      · rw [if_neg h1]
        simp only [Option.isSome_none, Bool.false_eq_true, false_iff]
        rintro ⟨⟨v, hv1, hv2⟩, -⟩
        simp only [List.head?_cons, Option.some.injEq] at hv1 hv2
        exact absurd (hv2.trans hv1.symm) h1

/-! ### Observation assembly: A3C reward distance (env.py lines 388-397) -/

/-- Embedding of the A3C-reward distance block of `_get_obs`:
`min_dist = np.inf; for vp in self.obj2vps[scan_objid]: min_dist = min(min_dist, d)`.
`np.inf` is modelled by `⊤` in `WithTop ℚ`; `sd` is the (finite) shortest
distance table `shortest_distances[scan][viewpoint][vp]`. -/
def a3cDistance (obj2vps : String → List String) (sd : String → String → String → ℚ)
    (scan viewpoint : String) (gt_objid : Option String) : WithTop ℚ :=
  match gt_objid with
  | none => 0
  | some oid =>
    (obj2vps (scan ++ "_" ++ oid)).foldl
      (fun m vp => min m ((sd scan viewpoint vp : ℚ) : WithTop ℚ)) ⊤

/-- C10: when the instruction's ground-truth object id is present but its
object-to-viewpoint entry is the empty list, the `distance` field of the
observation is positive infinity (the fold over an empty goal set never
lowers `np.inf`), not `0` and not an error. -/
theorem c10_distance_inf (obj2vps : String → List String)
    (sd : String → String → String → ℚ) (scan viewpoint : String) (oid : String)
    (hempty : obj2vps (scan ++ "_" ++ oid) = []) :
    a3cDistance obj2vps sd scan viewpoint (some oid) = ⊤
      ∧ a3cDistance obj2vps sd scan viewpoint (some oid) ≠ 0 := by
  have h : a3cDistance obj2vps sd scan viewpoint (some oid) = ⊤ := by
    unfold a3cDistance
    dsimp only
    rw [hempty]
    rfl
  refine ⟨h, ?_⟩
  rw [h]
  simp

/-- Witness for C10 at a concrete empty object-to-viewpoint table. -/
theorem c10_distance_inf_witness :
    (fun _ : String => ([] : List String)) ("sc" ++ "_" ++ "19") = []
      ∧ a3cDistance (fun _ => []) (fun _ _ _ => 1) "sc" "vp" (some "19") = ⊤
      ∧ a3cDistance (fun _ => []) (fun _ _ _ => 1) "sc" "vp" (some "19") ≠ 0 :=
  ⟨rfl, c10_distance_inf (fun _ => []) (fun _ _ _ => 1) "sc" "vp" "19" rfl⟩

/-! ### Object features in `_get_obs`, alternate data mode (env.py lines 313-341) -/

/-- One object record inside `obj_feats[scan][viewpoint][vis_pos]`: its
feature vector (`obj['features'].toarray().squeeze()`) and 2D box
(`obj['boxes'].toarray()[0] = [x1, y1, x2, y2]`). -/
structure ObjRec where
  features : List ℚ
  boxes : ℚ × ℚ × ℚ × ℚ
deriving DecidableEq

/-- Embedding of `get_obj_local_pos_new` (env.py lines 548-554). `none`
models the fatal `assert (w>0) and (h>0)` failure. -/
def get_obj_local_pos_new (raw : ℚ × ℚ × ℚ × ℚ) : Option (List ℚ) :=
  let w := raw.2.2.1 - raw.1
  let h := raw.2.2.2 - raw.2.1
  if 0 < w ∧ 0 < h then some [h / 480, w / 640, w * h / (640 * 480)] else none

/-- The binding state of the four object-feature variables at the point the
observation record `ob` is built: `none` models an unbound Python name. -/
structure ObjVars where
  obj_img_fts : Option (List (List ℚ))
  obj_ang_fts : Option (List (List ℚ))
  obj_box_fts : Option (List (List ℚ))
  obj_ids : Option (List String)
deriving DecidableEq

/-- Inner loop over the objects visible at one discretized position:
for `vis_pos < 25`, append the object's feature vector, the directional
angle feature at its position, its local box encoding, and its id.
`none` models the uncaught AssertionError from `get_obj_local_pos_new`. -/
def objInner (directional : ℕ → List ℚ) (vis_pos : ℕ) :
    List (String × ObjRec) →
    List (List ℚ) × List (List ℚ) × List (List ℚ) × List String →
    Option (List (List ℚ) × List (List ℚ) × List (List ℚ) × List String)
  | [], acc => some acc
  | (objId, obj) :: objs, (img, ang, box, ids) =>
    if vis_pos < 25 then
      match get_obj_local_pos_new obj.boxes with
      | none => none
      | some bf =>
        objInner directional vis_pos objs
          (img ++ [obj.features], ang ++ [directional vis_pos], box ++ [bf], ids ++ [objId])
    else objInner directional vis_pos objs (img, ang, box, ids)

/-- The accumulation loop over `obj_feats[scan][vp].items()` (the `for`
loops of env.py lines 325-336). -/
def objLoop (directional : ℕ → List ℚ) :
    List (ℕ × List (String × ObjRec)) →
    List (List ℚ) × List (List ℚ) × List (List ℚ) × List String →
    Option (List (List ℚ) × List (List ℚ) × List (List ℚ) × List String)
  | [], acc => some acc
  | (vis_pos, objs) :: groups, acc =>
    match objInner directional vis_pos objs acc with
    | none => none
    | some acc2 => objLoop directional groups acc2

/-- Embedding of the `args.new_data` object branch of `_get_obs`
(env.py lines 314-341).  `vpObjFeats` is `obj_feats[scan][viewpoint]`,
`none` modelling the `KeyError` raised at the `for`-loop header; `prev` is
the binding state of the four variables before the branch runs (unbound on
the first batch slot).  The `try` block first binds all four variables to
empty lists (lines 321-324) and only then evaluates the failing lookup, so
the `except KeyError: pass` path returns those bindings.  The `np.array`
conversions only change the container type and are modelled as the identity.
`.error` models the uncaught AssertionError escaping the branch. -/
def objFeatBranch (directional : ℕ → List ℚ)
    (vpObjFeats : Option (List (ℕ × List (String × ObjRec)))) (prev : ObjVars) :
    Except Unit ObjVars :=
  match vpObjFeats with
  | none => .ok ⟨some [], some [], some [], some []⟩
  | some groups =>
    match objLoop directional groups ([], [], [], []) with
    | none => .error ()
    | some (img, ang, box, ids) => .ok ⟨some img, some ang, some box, some ids⟩

/-- C9 counterexample: at a concrete state where the object-feature lookup
for the current (scan, viewpoint) raises `KeyError` and the four variables
were previously unbound, the swallowed exception leaves all four variables
bound (to the empty lists assigned at the top of the `try` block), so the
claim that they are left unbound — and that the observation record
references possibly-unbound variables — is false on this code. -/
theorem c9_counterexample :
    objFeatBranch (fun _ => []) none ⟨none, none, none, none⟩ =
        .ok ⟨some [], some [], some [], some []⟩
      ∧ (some ([] : List (List ℚ)) ≠ none ∧ some ([] : List String) ≠ none) :=
  ⟨rfl, by decide, by decide⟩

/-- C9 amended: a `KeyError` in the alternate-data object branch is swallowed
and leaves the four variables bound to the empty lists assigned at the top of
the `try` block (plain lists, never converted by `np.array`); more generally,
whenever the branch completes without a fatal error, all four variables are
bound, so the observation record never references an unbound variable. -/
theorem c9_amended (directional : ℕ → List ℚ) (prev : ObjVars)
    (vpObjFeats : Option (List (ℕ × List (String × ObjRec)))) (out : ObjVars)
    (h : objFeatBranch directional vpObjFeats prev = .ok out) :
    (vpObjFeats = none → out = ⟨some [], some [], some [], some []⟩)
      ∧ out.obj_img_fts.isSome ∧ out.obj_ang_fts.isSome
      ∧ out.obj_box_fts.isSome ∧ out.obj_ids.isSome := by
  unfold objFeatBranch at h
  cases hv : vpObjFeats with
  | none =>
    rw [hv] at h
    obtain rfl : _ = out := Except.ok.inj h
    exact ⟨fun _ => rfl, rfl, rfl, rfl, rfl⟩
  | some groups =>
    rw [hv] at h
    dsimp only at h
    cases hl : objLoop directional groups ([], [], [], []) with
    | none => rw [hl] at h; cases h
    | some acc =>
      obtain ⟨img, ang, box, ids⟩ := acc
      rw [hl] at h
      obtain rfl : _ = out := Except.ok.inj h
      exact ⟨fun hc => Option.noConfusion hc, rfl, rfl, rfl, rfl⟩

/-- Witness for C9 amended at a concrete `KeyError` state. -/
theorem c9_amended_witness :
    objFeatBranch (fun _ => []) none ⟨none, none, none, none⟩ =
        .ok ⟨some [], some [], some [], some []⟩
      ∧ ((none = (none : Option (List (ℕ × List (String × ObjRec)))) →
            (⟨some [], some [], some [], some []⟩ : ObjVars) =
              ⟨some [], some [], some [], some []⟩)
          ∧ (⟨some [], some [], some [], some []⟩ : ObjVars).obj_img_fts.isSome
          ∧ (⟨some [], some [], some [], some []⟩ : ObjVars).obj_ang_fts.isSome
          ∧ (⟨some [], some [], some [], some []⟩ : ObjVars).obj_box_fts.isSome
          ∧ (⟨some [], some [], some [], some []⟩ : ObjVars).obj_ids.isSome) :=
  ⟨rfl, c9_amended (fun _ => []) ⟨none, none, none, none⟩ none
    ⟨some [], some [], some [], some []⟩ rfl⟩

/-! ### Episode/Batch Controller: `_next_minibatch` (env.py lines 174-209)

The dataset `self.data` holds mutable Python dict objects; randomized
start/end sampling mutates the `path` field of batch items.  To make the
aliasing behaviour of `copy.deepcopy` observable, items live in an explicit
heap (`ℕ → Item`) and `self.data` / `self.batch` are lists of addresses;
`copy.deepcopy(self.batch)` allocates fresh addresses.  Randomness is
passed in explicitly: `shuffleFn` models `random.shuffle` (theorems assume
it permutes), and `rs`/`re` give the value of `np.random.randint` at batch
position `i` (always in range in the source, so out-of-range defaults are
unreachable under the theorems' hypotheses). -/

/-- One instruction dataset item (the fields `_next_minibatch` touches). -/
structure Item where
  scan : String
  path : List String
  end_vps : List String
deriving DecidableEq, Inhabited

/-- Lines 181-188: slice `data[ix : ix+bs]`; on exhaustion reshuffle and wrap
around with `data[:bs-len(batch)]`. Returns (new data order, new ix, batch). -/
def sliceBatch {α : Type} (shuffleFn : List α → List α) (data : List α) (ix bs : ℕ) :
    List α × ℕ × List α :=
  let batch := (data.drop ix).take bs
  if batch.length < bs then
    let data2 := shuffleFn data
    let newIx := bs - batch.length
    (data2, newIx, batch ++ data2.take newIx)
  else (data, ix + bs, batch)

/-- Lines 194-197: the `cand_vps` list — viewpoints whose shortest path from
the end viewpoint has node count in `[4,7]` (`len(cpath) >= 4 and
len(cpath) <= 7`). `items` is `self.shortest_paths[scan][end_vp].items()`. -/
def candVps (items : List (String × List String)) : List String :=
  (items.filter fun p => decide (4 ≤ p.2.length ∧ p.2.length ≤ 7)).map Prod.fst

/-- Lines 193-199, body of the `multi_startpoints` loop for one batch item:
pick `cand_vps[randint(len(cand_vps))]` when candidates exist, otherwise
keep the original start. `np.random.randint` is always in range, so the
out-of-range `getD` default is unreachable. -/
def pickStart (items : List (String × List String)) (r : ℕ) (orig : String) : String :=
  if 0 < (candVps items).length then (candVps items).getD r orig else orig

/-- Heap write `heap[a] := it`. -/
def writeHeap (h : ℕ → Item) (a : ℕ) (it : Item) : ℕ → Item :=
  fun b => if b = a then it else h b

/-- Mutable state of the controller relevant to `_next_minibatch`. -/
structure MBState where
  data : List ℕ
  ix : ℕ
  batch : List ℕ
  heap : ℕ → Item
  nextAddr : ℕ

/-- One iteration of the mutation loop (lines 207-208): the deep copy of
batch item `i` lives at address `nextAddr + i`; its `path` field is replaced
by `self.shortest_paths[scan][start_vps[i]][end_vps[i]]`. The copied item is
read from the original heap (`copy.deepcopy` ran before any mutation). -/
def copyStep (spAll : String → String → List (String × List String))
    (heap : ℕ → Item) (nextAddr : ℕ) (batch : List ℕ) (starts ends : List String)
    (h : ℕ → Item) (i : ℕ) : ℕ → Item :=
  let orig := heap (batch.getD i 0)
  let newPath := (lookupA (spAll orig.scan (starts.getD i "")) (ends.getD i "")).getD []
  writeHeap h (nextAddr + i) { orig with path := newPath }

/-- Lines 190-209: optional start/end randomization.  `spAll scan src` is
`self.shortest_paths[scan][src].items()` (an association list keyed by the
target viewpoint).  When a flag is active, `self.batch` is replaced by a
deep copy (fresh addresses `nextAddr + i`) whose `path` fields are set to
the freshly computed shortest path from the resolved start to the resolved
end. Start candidates are computed against `end_vps[i]` as it is at line
195, i.e. the item's original `path[-1]` — endpoint randomization happens
afterwards (lines 200-203).  The `headD`/`getLastD`/`getD` defaults stand in
for `path[0]`, `path[-1]` and `end_vps[randint(len(end_vps))]`, which the
source only evaluates on non-empty lists (`randint` is in range); the
defaults are unreachable under the theorems' hypotheses. -/
def randomizePaths (spAll : String → String → List (String × List String))
    (multiStart multiEnd : Bool) (rs re : ℕ → ℕ)
    (heap : ℕ → Item) (nextAddr : ℕ) (batch : List ℕ) :
    ((ℕ → Item) × ℕ) × List ℕ :=
  let items := batch.map heap
  let start0 := items.map fun it => it.path.headD ""
  let end0 := items.map fun it => it.path.getLastD ""
  let starts := if multiStart then
      (List.range items.length).map fun i =>
        pickStart (spAll ((items.getD i default).scan) (end0.getD i "")) (rs i) (start0.getD i "")
    else start0
  let ends := if multiEnd then
      (List.range items.length).map fun i =>
        ((items.getD i default).end_vps).getD (re i) (end0.getD i "")
    else end0
  if multiStart || multiEnd then
    let copyRefs := (List.range batch.length).map fun i => nextAddr + i
    let heap2 := (List.range batch.length).foldl
      (copyStep spAll heap nextAddr batch starts ends) heap
    ((heap2, nextAddr + batch.length), copyRefs)
  else ((heap, nextAddr), batch)

/-- Embedding of `_next_minibatch` (lines 174-209): slice the next batch,
then apply the optional start/end randomization to a deep copy. -/
def next_minibatch (shuffleFn : List ℕ → List ℕ)
    (spAll : String → String → List (String × List String))
    (multiStart multiEnd : Bool) (rs re : ℕ → ℕ)
    (st : MBState) (bs : ℕ) : MBState :=
  let s := sliceBatch shuffleFn st.data st.ix bs
  let r := randomizePaths spAll multiStart multiEnd rs re st.heap st.nextAddr s.2.2
  { data := s.1, ix := s.2.1, batch := r.2, heap := r.1.1, nextAddr := r.1.2 }

/-- `getD` through `map` over `range`. -/
theorem getD_map_range {α : Type} (n : ℕ) (f : ℕ → α) (i : ℕ) (hi : i < n) (d : α) :
    ((List.range n).map f).getD i d = f i := by
  rw [List.getD_eq_getD_get?, List.get?_map, List.get?_range hi]
  rfl

/-- `getD` through `map`, at an in-range index. -/
theorem getD_map_of_lt {α β : Type} (f : α → β) (l : List α) (i : ℕ) (hi : i < l.length)
    (d : β) (d0 : α) : (l.map f).getD i d = f (l.getD i d0) := by
  rw [List.getD_eq_getD_get?, List.get?_map, List.getD_eq_getD_get?, List.get?_eq_get hi]
  rfl

/-- The deep-copy mutation loop never writes an address outside
`{nextAddr + i | i ∈ l}`. -/
theorem foldl_copyStep_ne (spAll : String → String → List (String × List String))
    (heap : ℕ → Item) (nextAddr : ℕ) (batch : List ℕ) (starts ends : List String)
    (l : List ℕ) (h0 : ℕ → Item) (a : ℕ) (ha : ∀ i ∈ l, a ≠ nextAddr + i) :
    (l.foldl (copyStep spAll heap nextAddr batch starts ends) h0) a = h0 a := by
  induction l generalizing h0 with
  | nil => rfl
  | cons j rest ih =>
    rw [List.foldl_cons, ih _ (fun i hi => ha i (List.mem_cons_of_mem _ hi))]
    simp only [copyStep, writeHeap]
    rw [if_neg (ha j (List.mem_cons_self _ _))]

/-- Value written by the deep-copy mutation loop at address `nextAddr + i`. -/
theorem foldl_copyStep_get (spAll : String → String → List (String × List String))
    (heap : ℕ → Item) (nextAddr : ℕ) (batch : List ℕ) (starts ends : List String)
    (l : List ℕ) (hnd : l.Nodup) (h0 : ℕ → Item) (i : ℕ) (hi : i ∈ l) :
    (l.foldl (copyStep spAll heap nextAddr batch starts ends) h0) (nextAddr + i) =
      { heap (batch.getD i 0) with
        path := (lookupA (spAll (heap (batch.getD i 0)).scan (starts.getD i ""))
          (ends.getD i "")).getD [] } := by
  induction l generalizing h0 with
  | nil => cases hi
  | cons j rest ih =>
    rw [List.foldl_cons]
    rcases List.mem_cons.1 hi with rfl | hmem
    · have hni : ∀ k ∈ rest, nextAddr + i ≠ nextAddr + k := by
        intro k hk heq
        exact (List.nodup_cons.1 hnd).1 ((Nat.add_left_cancel heq) ▸ hk)
      rw [foldl_copyStep_ne _ _ _ _ _ _ _ _ _ hni]
      simp [copyStep, writeHeap]
    · exact ih (List.nodup_cons.1 hnd).2 _ hmem

/-- `randomizePaths` returns a batch of the same length. -/
theorem randomizePaths_batch_length (spAll : String → String → List (String × List String))
    (mS mE : Bool) (rs re : ℕ → ℕ) (heap : ℕ → Item) (na : ℕ) (batch : List ℕ) :
    (randomizePaths spAll mS mE rs re heap na batch).2.length = batch.length := by
  unfold randomizePaths
  dsimp only
  cases h : (mS || mE) <;> simp [h]

/-- `randomizePaths` leaves every address below `nextAddr` untouched: the
mutation applies only to the fresh deep-copy addresses. -/
theorem randomizePaths_heap_frame (spAll : String → String → List (String × List String))
    (mS mE : Bool) (rs re : ℕ → ℕ) (heap : ℕ → Item) (na : ℕ) (batch : List ℕ)
    (a : ℕ) (ha : a < na) :
    (randomizePaths spAll mS mE rs re heap na batch).1.1 a = heap a := by
  unfold randomizePaths
  dsimp only
  cases h : (mS || mE)
  · simp [h]
  · simp only [h, if_pos]
    refine foldl_copyStep_ne _ _ _ _ _ _ _ _ _ ?_
    intro i _
    omega

/-- C3 counterexample state: a dataset with a single item. -/
def c3CexState : MBState :=
  { data := [0], ix := 0, batch := [], heap := fun _ => default, nextAddr := 1 }

/-- C3 counterexample: with dataset length 1 and requested batch size 3,
`_next_minibatch` stores a batch of 2 items (not 3), and the cursor lands at
2, outside `[0, len(dataset))`.  This falsifies the claim for arbitrary
requested sizes. -/
theorem c3_counterexample :
    (next_minibatch (fun l => l) (fun _ _ => []) false false (fun _ => 0) (fun _ => 0)
        c3CexState 3).batch.length = 2
      ∧ ((next_minibatch (fun l => l) (fun _ _ => []) false false (fun _ => 0) (fun _ => 0)
        c3CexState 3).batch.length = 3 → False)
      ∧ ((next_minibatch (fun l => l) (fun _ _ => []) false false (fun _ => 0) (fun _ => 0)
        c3CexState 3).ix <
          (next_minibatch (fun l => l) (fun _ _ => []) false false (fun _ => 0) (fun _ => 0)
            c3CexState 3).data.length → False) := by
  refine ⟨rfl, ?_, ?_⟩ <;> decide

/-- C3 amended: provided the requested size is at most the dataset length
(and the cursor is valid and the shuffle preserves length), `_next_minibatch`
stores exactly `batch_size` items, and afterwards the cursor lies in
`[0, len(dataset)]` — the cursor can land exactly at `len(dataset)` when a
batch ends flush with the dataset, so the right end is closed, not open. -/
theorem c3_amended (shuffleFn : List ℕ → List ℕ)
    (spAll : String → String → List (String × List String))
    (mS mE : Bool) (rs re : ℕ → ℕ) (st : MBState) (bs : ℕ)
    (hshuf : (shuffleFn st.data).length = st.data.length)
    (hix : st.ix ≤ st.data.length) (hbs : bs ≤ st.data.length) :
    (next_minibatch shuffleFn spAll mS mE rs re st bs).batch.length = bs
      ∧ (next_minibatch shuffleFn spAll mS mE rs re st bs).ix
          ≤ (next_minibatch shuffleFn spAll mS mE rs re st bs).data.length := by
  unfold next_minibatch
  dsimp only
  rw [randomizePaths_batch_length]
  unfold sliceBatch
  dsimp only
  by_cases hc : ((st.data.drop st.ix).take bs).length < bs
  · rw [if_pos hc]
    simp only [List.length_take, List.length_drop] at hc
    dsimp only
    simp only [List.length_append, List.length_take, List.length_drop, hshuf]
    omega
  · rw [if_neg hc]
    simp only [List.length_take, List.length_drop, not_lt] at hc
    dsimp only
    simp only [List.length_take, List.length_drop]
    omega

/-- Witness state for C3 amended. -/
def c3WitState : MBState :=
  { data := [5, 6, 7], ix := 1, batch := [], heap := fun _ => default, nextAddr := 3 }

/-- Witness for C3 amended at a concrete in-range call. -/
theorem c3_amended_witness :
    ((fun l : List ℕ => l) c3WitState.data).length = c3WitState.data.length
      ∧ c3WitState.ix ≤ c3WitState.data.length
      ∧ 2 ≤ c3WitState.data.length
      ∧ ((next_minibatch (fun l => l) (fun _ _ => []) false false (fun _ => 0) (fun _ => 0)
            c3WitState 2).batch.length = 2
          ∧ (next_minibatch (fun l => l) (fun _ _ => []) false false (fun _ => 0) (fun _ => 0)
            c3WitState 2).ix
              ≤ (next_minibatch (fun l => l) (fun _ _ => []) false false (fun _ => 0)
                (fun _ => 0) c3WitState 2).data.length) :=
  ⟨rfl, by decide, by decide,
    c3_amended (fun l => l) (fun _ _ => []) false false (fun _ => 0) (fun _ => 0)
      c3WitState 2 rfl (by decide) (by decide)⟩

/-- C7: when start/end randomization is active, `_next_minibatch` mutates
only the fresh deep-copy addresses, so the `path` field of every item of the
persisted dataset `self.data` is unchanged after the call. -/
theorem c7_frame (shuffleFn : List ℕ → List ℕ)
    (spAll : String → String → List (String × List String))
    (mS mE : Bool) (rs re : ℕ → ℕ) (st : MBState) (bs : ℕ)
    (hflag : (mS || mE) = true)
    (hbound : ∀ r ∈ st.data, r < st.nextAddr) :
    ∀ r ∈ st.data,
      ((next_minibatch shuffleFn spAll mS mE rs re st bs).heap r).path = (st.heap r).path := by
  intro r hr
  unfold next_minibatch
  dsimp only
  rw [randomizePaths_heap_frame _ _ _ _ _ _ _ _ _ (hbound r hr)]

/-- Witness heap item for C7. -/
def c7Item : Item := { scan := "s", path := ["S", "E"], end_vps := ["E"] }

/-- Witness state for C7. -/
def c7State : MBState :=
  { data := [0], ix := 0, batch := [], heap := fun _ => c7Item, nextAddr := 1 }

/-- Witness for C7 at a concrete call with both randomization flags on. -/
theorem c7_frame_witness :
    ((true || true) = true)
      ∧ (∀ r ∈ c7State.data, r < c7State.nextAddr)
      ∧ ((next_minibatch (fun l => l) (fun _ _ => []) true true (fun _ => 0) (fun _ => 0)
          c7State 1).heap 0).path = (c7State.heap 0).path :=
  ⟨rfl, by decide,
    c7_frame (fun l => l) (fun _ _ => []) true true (fun _ => 0) (fun _ => 0) c7State 1
      rfl (by decide) 0 (by decide)⟩

/-- The dataset item behind batch position `i` (`self.batch[i]` before any
copy). -/
def batchItem (heap : ℕ → Item) (batch : List ℕ) (i : ℕ) : Item :=
  heap (batch.getD i 0)

/-- `self.shortest_paths[scan][end_vp].items()` for an item's original end
viewpoint `path[-1]` — the table the start-candidate filter walks. -/
def startItems (spAll : String → String → List (String × List String)) (it : Item) :
    List (String × List String) :=
  spAll it.scan (it.path.getLastD "")

/-- The start viewpoint `_next_minibatch` resolves for one item when
`multi_startpoints` is on. -/
def chosenStart (spAll : String → String → List (String × List String))
    (rs : ℕ → ℕ) (i : ℕ) (it : Item) : String :=
  pickStart (startItems spAll it) (rs i) (it.path.headD "")

/-- The end viewpoint `_next_minibatch` resolves for one item (randomized
from `end_vps` when `multi_endpoints` is on, otherwise the original
`path[-1]`). -/
def finalEnd (mE : Bool) (re : ℕ → ℕ) (i : ℕ) (it : Item) : String :=
  if mE then it.end_vps.getD (re i) (it.path.getLastD "") else it.path.getLastD ""

/-- The item written at deep-copy address `nextAddr + i` by `randomizePaths`
with `multi_startpoints` on: the start is sampled from the candidates of the
item's ORIGINAL end viewpoint (`path[-1]`), even when `multi_endpoints` is
also active, because endpoint randomization runs after start sampling. -/
theorem randomizePaths_heap_get (spAll : String → String → List (String × List String))
    (mE : Bool) (rs re : ℕ → ℕ) (heap : ℕ → Item) (na : ℕ) (batch : List ℕ)
    (i : ℕ) (hi : i < batch.length) :
    (randomizePaths spAll true mE rs re heap na batch).1.1 (na + i) =
      { batchItem heap batch i with
        path := (lookupA (spAll (batchItem heap batch i).scan
            (chosenStart spAll rs i (batchItem heap batch i)))
          (finalEnd mE re i (batchItem heap batch i))).getD [] } := by
  have hlenm : (batch.map heap).length = batch.length := List.length_map _ _
  have h1 : (batch.map heap).getD i default = heap (batch.getD i 0) :=
    getD_map_of_lt heap batch i hi default 0
  have h2 : ((batch.map heap).map (fun it => it.path.getLastD "")).getD i ""
      = (heap (batch.getD i 0)).path.getLastD "" := by
    rw [getD_map_of_lt _ _ i (by rw [hlenm]; exact hi) "" default, h1]
  have h3 : ((batch.map heap).map (fun it => it.path.headD "")).getD i ""
      = (heap (batch.getD i 0)).path.headD "" := by
    rw [getD_map_of_lt _ _ i (by rw [hlenm]; exact hi) "" default, h1]
  have hirange : i < (batch.map heap).length := by rw [hlenm]; exact hi
  unfold randomizePaths
  simp only [Bool.true_or, if_true]
  rw [foldl_copyStep_get spAll heap na batch _ _ _ (List.nodup_range _) heap i
    (List.mem_range.2 hi)]
  rw [getD_map_range _ _ i hirange, h1, h2, h3]
  unfold batchItem chosenStart startItems finalEnd
  cases mE
  · simp only [Bool.false_eq_true, if_false, h2]
  · simp only [if_true]
    rw [getD_map_range _ _ i hirange, h1, h2]

/-- C4 amended: with `multi_startpoints` active, the start viewpoint of batch
item `i` is drawn uniformly (the random index selects from a duplicate-free
candidate list that enumerates exactly the qualifying set) from the
viewpoints whose shortest path to the item's ORIGINAL end viewpoint
(`path[-1]`) has node count in `[4,7]`; if that set is empty the original
start is kept; and the deep-copied item's path is the shortest path from the
resolved start to the resolved end. Start sampling runs before endpoint
randomization, so it never sees a randomized end viewpoint. -/
theorem c4_amended (spAll : String → String → List (String × List String))
    (mE : Bool) (rs re : ℕ → ℕ) (heap : ℕ → Item) (na : ℕ) (batch : List ℕ)
    (i : ℕ) (hi : i < batch.length) :
    (∀ v, v ∈ candVps (startItems spAll (batchItem heap batch i)) ↔
        ∃ p, (v, p) ∈ startItems spAll (batchItem heap batch i)
          ∧ 4 ≤ p.length ∧ p.length ≤ 7)
      ∧ (((startItems spAll (batchItem heap batch i)).map Prod.fst).Nodup →
          (candVps (startItems spAll (batchItem heap batch i))).Nodup)
      ∧ (∀ hr : rs i < (candVps (startItems spAll (batchItem heap batch i))).length,
          chosenStart spAll rs i (batchItem heap batch i) =
            (candVps (startItems spAll (batchItem heap batch i))).get ⟨rs i, hr⟩)
      ∧ (candVps (startItems spAll (batchItem heap batch i)) = [] →
          chosenStart spAll rs i (batchItem heap batch i) =
            (batchItem heap batch i).path.headD "")
      ∧ ((randomizePaths spAll true mE rs re heap na batch).1.1 (na + i)).path =
          (lookupA (spAll (batchItem heap batch i).scan
              (chosenStart spAll rs i (batchItem heap batch i)))
            (finalEnd mE re i (batchItem heap batch i))).getD [] := by
  refine ⟨?_, ?_, ?_, ?_, ?_⟩
  · intro v
    unfold candVps
    constructor
    · intro hv
      rcases List.mem_map.1 hv with ⟨a, ha, rfl⟩
      rcases List.mem_filter.1 ha with ⟨hmem, hcond⟩
      exact ⟨a.2, hmem, (of_decide_eq_true hcond).1, (of_decide_eq_true hcond).2⟩
    · rintro ⟨p, hp, h4, h7⟩
      exact List.mem_map.2 ⟨(v, p), List.mem_filter.2 ⟨hp, decide_eq_true ⟨h4, h7⟩⟩, rfl⟩
  · intro hnd
    unfold candVps
    exact hnd.sublist ((List.filter_sublist _).map _)
  · intro hr
    unfold chosenStart pickStart
    rw [if_pos (Nat.lt_of_le_of_lt (Nat.zero_le _) hr)]
    rw [List.getD_eq_getD_get?, List.get?_eq_get hr]
    rfl
  · intro hempty
    unfold chosenStart pickStart
    rw [hempty]
    simp
  · rw [randomizePaths_heap_get spAll mE rs re heap na batch i hi]

/-- Concrete item for the C4 scenario: original start `"S"`, original end
`"E1"`, one randomizable end viewpoint `"E2"`. -/
def c4Item : Item := { scan := "s", path := ["S", "E1"], end_vps := ["E2"] }

/-- Concrete shortest-path table for the C4 scenario: from `"E1"` only `"A"`
qualifies (node count 4); from `"E2"` only `"B"` qualifies. -/
def c4SpAll : String → String → List (String × List String) := fun _ src =>
  if src = "E1" then [("A", ["A", "m1", "m2", "E1"])]
  else if src = "E2" then [("B", ["B", "n1", "n2", "E2"])]
  else if src = "A" then [("E2", ["A", "x", "E2"])]
  else if src = "B" then [("E2", ["B", "E2"])]
  else []

/-- C4 counterexample: with both `multi_startpoints` and `multi_endpoints`
active, the claim says the start is drawn from the candidates of the
(already randomized) end viewpoint `"E2"`, whose candidate set is the
non-empty `["B"]`.  The code instead samples against the original end
`"E1"`, picks `"A"`, and installs the shortest path from `"A"` to `"E2"` —
a start outside the claimed candidate set. -/
theorem c4_counterexample :
    ((randomizePaths c4SpAll true true (fun _ => 0) (fun _ => 0) (fun _ => c4Item) 10
        [0]).1.1 10).path = ["A", "x", "E2"]
      ∧ candVps (c4SpAll "s" "E2") = ["B"]
      ∧ (["A", "x", "E2"] : List String).headD "" = "A"
      ∧ ("A" : String) ∉ (["B"] : List String)
      ∧ (["B"] : List String) ≠ [] := by
  refine ⟨?_, ?_, ?_, ?_, ?_⟩ <;> decide

/-- Witness for C4 amended at the concrete scenario. -/
theorem c4_amended_witness :
    0 < ([0] : List ℕ).length
      ∧ ((randomizePaths c4SpAll true true (fun _ => 0) (fun _ => 0) (fun _ => c4Item) 10
            [0]).1.1 (10 + 0)).path =
          (lookupA (c4SpAll (batchItem (fun _ => c4Item) [0] 0).scan
              (chosenStart c4SpAll (fun _ => 0) 0 (batchItem (fun _ => c4Item) [0] 0)))
            (finalEnd true (fun _ => 0) 0 (batchItem (fun _ => c4Item) [0] 0))).getD [] :=
  ⟨by decide,
    (c4_amended c4SpAll true (fun _ => 0) (fun _ => 0) (fun _ => c4Item) 10 [0] 0
      (by decide)).2.2.2.2⟩

/-! ### Candidate View Resolver: `make_candidate` (env.py lines 219-293)

The simulator sweep and the feature/angle encodings are external
collaborators: `states ix` is the simulator state at discretized orientation
`ix` (the code asserts `state.viewIndex == ix`), `feature ix` the visual
feature row, `angleFeat` the `angle_feature` encoder from `utils.data`, and
`rad30` the constant `math.radians(30)`.  Angular distance
`np.sqrt(rel_heading**2 + rel_elevation**2)` enters only strict `<`
comparisons of nonnegative values, on which `sqrt` is strictly monotone, so
it is represented by its square `locDistSq`. -/

/-- A navigable location as returned by the simulator. -/
structure Loc where
  viewpointId : String
  relHeading : ℚ
  relElevation : ℚ
  x : ℚ
  y : ℚ
  z : ℚ
deriving DecidableEq

/-- Simulator state at one discretized orientation. -/
structure ViewState where
  heading : ℚ
  elevation : ℚ
  navigableLocations : List Loc
deriving DecidableEq

/-- Squared `_loc_distance(loc)` (line 220-221). -/
def locDistSq (loc : Loc) : ℚ := loc.relHeading ^ 2 + loc.relElevation ^ 2

/-- The inputs of one `make_candidate` call. -/
structure MCCtx where
  angleFeat : ℚ → ℚ → List ℚ
  feature : ℕ → List ℚ
  states : ℕ → ViewState
  scanId : String
  viewId : ℕ
  rad30 : ℚ

/-- `base_heading = (viewId % 12) * math.radians(30)` (line 222). -/
def baseHeading (ctx : MCCtx) : ℚ := (ctx.viewId % 12 : ℕ) * ctx.rad30

/-- `base_elevation = (viewId // 12 - 1) * math.radians(30)` (line 223). -/
def baseElevation (ctx : MCCtx) : ℚ := (((ctx.viewId / 12 : ℕ) : ℚ) - 1) * ctx.rad30

/-- One `adj_dict` entry (the dict literal of lines 257-269). -/
structure Cand where
  heading : ℚ
  elevation : ℚ
  normalized_heading : ℚ
  normalized_elevation : ℚ
  scanId : String
  viewpointId : String
  pointId : ℕ
  distance : ℚ
  idx : ℕ
  feature : List ℚ
  position : ℚ × ℚ × ℚ
deriving DecidableEq

/-- The entry built for the sighting of `loc` at orientation `ix`,
`enumerate`-index `j` over `navigableLocations[1:]` (lines 239-269):
`heading`/`elevation` are relative to the caller's base orientation,
`normalized_*` to the absolute frame, `distance` the (squared) angular
distance, `idx = j + 1`, `feature` the visual row at `ix` concatenated with
the angle encoding. -/
def mkCand (ctx : MCCtx) (ix j : ℕ) (loc : Loc) : Cand :=
  let st := ctx.states ix
  let heading := st.heading - baseHeading ctx
  let elevation := st.elevation - baseElevation ctx
  { heading := heading + loc.relHeading
    elevation := elevation + loc.relElevation
    normalized_heading := st.heading + loc.relHeading
    normalized_elevation := st.elevation + loc.relElevation
    scanId := ctx.scanId
    viewpointId := loc.viewpointId
    pointId := ix
    distance := locDistSq loc
    idx := j + 1
    feature := ctx.feature ix ++ ctx.angleFeat (heading + loc.relHeading) (elevation + loc.relElevation)
    position := (loc.x, loc.y, loc.z) }

/-- A raw sighting: (orientation index, enumerate index, location). -/
abbrev MCEvent := ℕ × ℕ × Loc

/-- Entry built from a sighting. -/
def mkCandE (ctx : MCCtx) (ev : MCEvent) : Cand := mkCand ctx ev.1 ev.2.1 ev.2.2

/-- Squared angular distance of a sighting. -/
def evDist (ev : MCEvent) : ℚ := locDistSq ev.2.2

/-- Target viewpoint of a sighting. -/
def eventVp (ev : MCEvent) : String := ev.2.2.viewpointId

/-- `enumerate(state.navigableLocations[1:])` starting at index `j`. -/
def locEvents (ix : ℕ) : ℕ → List Loc → List MCEvent
  | _, [] => []
  | j, loc :: rest => (ix, j, loc) :: locEvents ix (j + 1) rest

/-- The sightings produced while the sweep sits at orientation `ix`. -/
def viewEvents (st : ViewState) (ix : ℕ) : List MCEvent :=
  locEvents ix 0 (st.navigableLocations.drop 1)

/-- Lines 255-269 for one navigable location: keep the existing entry unless
this sighting is the first for its target viewpoint or strictly closer. -/
def adjStep (ctx : MCCtx) (adj : List (String × Cand)) (ev : MCEvent) : List (String × Cand) :=
  match lookupA adj (eventVp ev) with
  | none => updateA adj (eventVp ev) (mkCandE ctx ev)
  | some c =>
    if evDist ev < c.distance then updateA adj (eventVp ev) (mkCandE ctx ev) else adj

/-- The `adj_dict` after the 36-orientation sweep (lines 228-269). -/
def buildAdjDict (ctx : MCCtx) : List (String × Cand) :=
  (List.range 36).foldl
    (fun adj ix => (viewEvents (ctx.states ix) ix).foldl (adjStep ctx) adj) []

/-- `candidate = list(adj_dict.values())` (line 270), the cache-miss result. -/
def makeCandidateMiss (ctx : MCCtx) : List Cand := (buildAdjDict ctx).map Prod.snd

/-- All sightings of the whole sweep, in processing order. -/
def allEvents (ctx : MCCtx) : List MCEvent :=
  ((List.range 36).map fun ix => viewEvents (ctx.states ix) ix).flatten

/-- A nested fold over per-element lists is the fold over their
concatenation. -/
theorem foldl_flatten_eq {α β γ : Type} (f : γ → β → γ) (g : α → List β) (l : List α)
    (init : γ) :
    l.foldl (fun acc a => (g a).foldl f acc) init = ((l.map g).flatten).foldl f init := by
  induction l generalizing init with
  | nil => rfl
  | cons a rest ih => simp only [List.map_cons, List.flatten_cons, List.foldl_append,
      List.foldl_cons, ih]

theorem buildAdjDict_eq_fold_events (ctx : MCCtx) :
    buildAdjDict ctx = (allEvents ctx).foldl (adjStep ctx) [] :=
  foldl_flatten_eq (adjStep ctx) _ (List.range 36) []

/-- The per-viewpoint effect of one sighting on the stored entry. -/
def candMerge (ctx : MCCtx) : Option Cand → MCEvent → Option Cand
  | none, ev => some (mkCandE ctx ev)
  | some c, ev => if evDist ev < c.distance then some (mkCandE ctx ev) else some c

/-- Folding `adjStep` over sightings affects each key independently; the
entry for `vp` results from merging only the sightings of `vp`, in order. -/
theorem lookupA_foldl_adjStep (ctx : MCCtx) (evs : List MCEvent)
    (adj : List (String × Cand)) (vp : String) :
    lookupA (evs.foldl (adjStep ctx) adj) vp =
      (evs.filter fun ev => decide (eventVp ev = vp)).foldl (candMerge ctx)
        (lookupA adj vp) := by
  induction evs generalizing adj with
  | nil => rfl
  | cons ev rest ih =>
    rw [List.foldl_cons, ih]
    by_cases hvp : eventVp ev = vp
    · rw [List.filter_cons_of_pos (by simp [hvp]), List.foldl_cons]
      congr 1
      have hladj : lookupA adj vp = lookupA adj (eventVp ev) := by rw [hvp]
      unfold adjStep
      cases hl : lookupA adj (eventVp ev) with
      | none =>
        rw [hladj, hl]
        dsimp only [candMerge]
        rw [lookupA_updateA, if_pos hvp]
      | some c =>
        rw [hladj, hl]
        dsimp only [candMerge]
        by_cases hd : evDist ev < c.distance
        · rw [if_pos hd, if_pos hd, lookupA_updateA, if_pos hvp]
        · rw [if_neg hd, if_neg hd, hladj, hl]
    · rw [List.filter_cons_of_neg (by simp [hvp])]
      congr 1
      unfold adjStep
      cases hl : lookupA adj (eventVp ev) with
      | none => rw [lookupA_updateA, if_neg hvp]
      | some c =>
        dsimp only
        by_cases hd : evDist ev < c.distance
        · rw [if_pos hd, lookupA_updateA, if_neg hvp]
        · rw [if_neg hd]

/-- The overwrite-on-strictly-smaller rule, on sightings alone. -/
def bestStep : Option MCEvent → MCEvent → Option MCEvent
  | none, ev => some ev
  | some c, ev => if evDist ev < evDist c then some ev else some c

/-- The sighting the resolver keeps for one target viewpoint. -/
def bestEvent (evs : List MCEvent) : Option MCEvent := evs.foldl bestStep none

theorem foldl_candMerge_eq_best (ctx : MCCtx) (evs : List MCEvent) (oe : Option MCEvent) :
    evs.foldl (candMerge ctx) (oe.map (mkCandE ctx)) =
      (evs.foldl bestStep oe).map (mkCandE ctx) := by
  induction evs generalizing oe with
  | nil => rfl
  | cons ev rest ih =>
    rw [List.foldl_cons, List.foldl_cons]
    have hstep : candMerge ctx (oe.map (mkCandE ctx)) ev = (bestStep oe ev).map (mkCandE ctx) := by
      cases oe with
      | none => rfl
      | some c =>
        dsimp only [candMerge, bestStep, Option.map]
        have hdist : (mkCandE ctx c).distance = evDist c := rfl
        rw [hdist]
        by_cases hd : evDist ev < evDist c
        · rw [if_pos hd, if_pos hd]
        · rw [if_neg hd, if_neg hd]
    rw [hstep, ih]

/-- The entry stored for `vp` is exactly the best (first-strictly-minimal)
sighting of `vp`, rendered through `mkCand`. -/
theorem lookupA_buildAdjDict (ctx : MCCtx) (vp : String) :
    lookupA (buildAdjDict ctx) vp =
      (bestEvent ((allEvents ctx).filter fun ev => decide (eventVp ev = vp))).map
        (mkCandE ctx) := by
  rw [buildAdjDict_eq_fold_events, lookupA_foldl_adjStep]
  have h0 : (lookupA ([] : List (String × Cand)) vp) =
      (Option.map (mkCandE ctx) (none : Option MCEvent)) := rfl
  rw [h0, foldl_candMerge_eq_best]
  rfl

/-- `e` occurs in `evs`, every sighting strictly before it is strictly
farther, and no sighting anywhere is strictly closer: the characterization
of the kept sighting. -/
def BestAt (evs : List MCEvent) (e : MCEvent) : Prop :=
  ∃ i, evs.get? i = some e ∧ (∀ x ∈ evs.take i, evDist e < evDist x)
    ∧ ∀ x ∈ evs, evDist e ≤ evDist x

theorem bestAux_spec (evs : List MCEvent) (c : MCEvent) :
    ∃ e, evs.foldl bestStep (some c) = some e ∧
      ((e = c ∧ ∀ x ∈ evs, evDist c ≤ evDist x)
        ∨ (∃ i, evs.get? i = some e ∧ evDist e < evDist c
            ∧ (∀ x ∈ evs.take i, evDist e < evDist x) ∧ ∀ x ∈ evs, evDist e ≤ evDist x)) := by
  induction evs generalizing c with
  | nil => exact ⟨c, rfl, Or.inl ⟨rfl, by simp⟩⟩
  | cons ev rest ih =>
    rw [List.foldl_cons]
    dsimp only [bestStep]
    by_cases hd : evDist ev < evDist c
    · rw [if_pos hd]
      obtain ⟨e, he, hcase⟩ := ih ev
      refine ⟨e, he, Or.inr ?_⟩
      rcases hcase with ⟨rfl, hall⟩ | ⟨i, hget, hlt, htake, hall⟩
      · refine ⟨0, rfl, hd, ?_, ?_⟩
        · intro x hx
          simp at hx
        · intro x hx
          rcases List.mem_cons.1 hx with rfl | hx2
          · exact le_refl _
          · exact hall x hx2
      · refine ⟨i + 1, by simpa using hget, lt_trans hlt hd, ?_, ?_⟩
        · intro x hx
          rw [List.take_succ_cons] at hx
          rcases List.mem_cons.1 hx with rfl | hx2
          · exact hlt
          · exact htake x hx2
        · intro x hx
          rcases List.mem_cons.1 hx with rfl | hx2
          · exact le_of_lt hlt
          · exact hall x hx2
    · rw [if_neg hd]
      obtain ⟨e, he, hcase⟩ := ih c
      refine ⟨e, he, ?_⟩
      rcases hcase with ⟨rfl, hall⟩ | ⟨i, hget, hlt, htake, hall⟩
      · refine Or.inl ⟨rfl, ?_⟩
        intro x hx
        rcases List.mem_cons.1 hx with rfl | hx2
        · exact not_lt.1 hd
        · exact hall x hx2
      · refine Or.inr ⟨i + 1, by simpa using hget, hlt, ?_, ?_⟩
        · intro x hx
          rw [List.take_succ_cons] at hx
          rcases List.mem_cons.1 hx with rfl | hx2
          · exact lt_of_lt_of_le hlt (not_lt.1 hd)
          · exact htake x hx2
        · intro x hx
          rcases List.mem_cons.1 hx with rfl | hx2
          · exact le_trans (le_of_lt hlt) (not_lt.1 hd)
          · exact hall x hx2

theorem bestEvent_spec (evs : List MCEvent) (e : MCEvent) (h : bestEvent evs = some e) :
    BestAt evs e := by
  cases evs with
  | nil => cases h
  | cons e0 rest =>
    unfold bestEvent at h
    rw [List.foldl_cons] at h
    dsimp only [bestStep] at h
    obtain ⟨e2, he2, hcase⟩ := bestAux_spec rest e0
    rw [he2] at h
    obtain rfl := Option.some.inj h
    rcases hcase with ⟨rfl, hall⟩ | ⟨i, hget, hlt, htake, hall⟩
    · refine ⟨0, rfl, ?_, ?_⟩
      · intro x hx
        simp at hx
      · intro x hx
        rcases List.mem_cons.1 hx with rfl | hx2
        · exact le_refl _
        · exact hall x hx2
    · refine ⟨i + 1, by simpa using hget, ?_, ?_⟩
      · intro x hx
        rw [List.take_succ_cons] at hx
        rcases List.mem_cons.1 hx with rfl | hx2
        · exact hlt
        · exact htake x hx2
      · intro x hx
        rcases List.mem_cons.1 hx with rfl | hx2
        · exact le_of_lt hlt
        · exact hall x hx2

theorem bestEvent_ne_none (evs : List MCEvent) (hne : evs ≠ []) :
    ∃ e, bestEvent evs = some e := by
  cases evs with
  | nil => exact absurd rfl hne
  | cons e0 rest =>
    unfold bestEvent
    rw [List.foldl_cons]
    dsimp only [bestStep]
    obtain ⟨e, he, _⟩ := bestAux_spec rest e0
    exact ⟨e, he⟩

/-- `lookupA` misses exactly the keys not in the dict. -/
theorem lookupA_eq_none_iff {κ α : Type} [DecidableEq κ] (g : List (κ × α)) (k : κ) :
    lookupA g k = none ↔ k ∉ g.map Prod.fst := by
  induction g with
  | nil => simp [lookupA]
  | cons kv rest ih =>
    obtain ⟨k0, v0⟩ := kv
    by_cases h0 : k0 = k
    · subst h0
      simp [lookupA]
    · have hkk : ¬ k = k0 := fun h => h0 h.symm
      simp only [lookupA, if_neg h0, List.map_cons, List.mem_cons]
      rw [ih]
      constructor
      · intro hn hor
        rcases hor with h | h
        · exact hkk h
        · exact hn h
      · intro hn hmem
        exact hn (Or.inr hmem)

/-- Well-formedness of `adj_dict`: keys are distinct and each entry's
`viewpointId` equals its key. -/
def AdjWf (adj : List (String × Cand)) : Prop :=
  (adj.map Prod.fst).Nodup ∧ ∀ kv ∈ adj, kv.2.viewpointId = kv.1

theorem adjWf_updateA (adj : List (String × Cand)) (k : String) (v : Cand)
    (h : AdjWf adj) (hv : v.viewpointId = k) : AdjWf (updateA adj k v) := by
  constructor
  · rw [keys_updateA]
    by_cases hs : (lookupA adj k).isSome = true
    · rw [if_pos hs]
      exact h.1
    · rw [if_neg hs]
      have hnot : k ∉ adj.map Prod.fst := by
        rw [← lookupA_eq_none_iff]
        cases hl : lookupA adj k
        · rfl
        · rw [hl] at hs
          exact absurd rfl hs
      simp [List.nodup_append, h.1, hnot]
  · intro kv hkv
    rcases mem_updateA adj k v kv hkv with hmem | rfl
    · exact h.2 kv hmem
    · exact hv

theorem adjStep_wf (ctx : MCCtx) (adj : List (String × Cand)) (ev : MCEvent)
    (h : AdjWf adj) : AdjWf (adjStep ctx adj ev) := by
  unfold adjStep
  cases lookupA adj (eventVp ev) with
  | none => exact adjWf_updateA adj _ _ h rfl
  | some c =>
    dsimp only
    by_cases hd : evDist ev < c.distance
    · rw [if_pos hd]
      exact adjWf_updateA adj _ _ h rfl
    · rw [if_neg hd]
      exact h

theorem buildAdjDict_wf (ctx : MCCtx) : AdjWf (buildAdjDict ctx) := by
  rw [buildAdjDict_eq_fold_events]
  have haux : ∀ (evs : List MCEvent) (adj : List (String × Cand)), AdjWf adj →
      AdjWf (evs.foldl (adjStep ctx) adj) := by
    intro evs
    induction evs with
    | nil => exact fun adj h => h
    | cons ev rest ih =>
      intro adj h
      rw [List.foldl_cons]
      exact ih _ (adjStep_wf ctx adj ev h)
  exact haux _ [] ⟨List.nodup_nil, by intro kv hkv; cases hkv⟩

/-- In a well-formed `adj_dict` the values carrying a given `viewpointId`
are counted by the key lookup: at most (and on a hit, exactly) one. -/
theorem count_filter_values (vp : String) :
    ∀ adj : List (String × Cand), AdjWf adj →
      ((adj.map Prod.snd).filter fun c => decide (c.viewpointId = vp)).length =
        if (lookupA adj vp).isSome then 1 else 0 := by
  intro adj
  induction adj with
  | nil => intro _; rfl
  | cons kv rest ih =>
    intro h
    obtain ⟨k, c⟩ := kv
    have hco : c.viewpointId = k := h.2 (k, c) (List.mem_cons_self _ _)
    have hwfrest : AdjWf rest :=
      ⟨(List.nodup_cons.1 h.1).2, fun kv2 hkv2 => h.2 kv2 (List.mem_cons_of_mem _ hkv2)⟩
    rw [List.map_cons, List.filter_cons]
    by_cases hk : k = vp
    · subst hk
      rw [decide_eq_true (by rw [hco])]
      have hnone : lookupA rest k = none :=
        (lookupA_eq_none_iff rest k).2 (List.nodup_cons.1 h.1).1
      have hlen0 : ((rest.map Prod.snd).filter fun c => decide (c.viewpointId = k)).length
          = 0 := by
        rw [ih hwfrest, hnone]
        rfl
      simp [lookupA, hlen0]
    · have hcne : ¬ (c.viewpointId = vp) := by rw [hco]; exact hk
      rw [decide_eq_false hcne]
      simp only [lookupA, if_neg hk]
      exact ih hwfrest

/-- C1: on a cache miss, for every target viewpoint sighted from two or more
of the 36 discretized orientations, the returned candidate list holds
exactly one entry for that viewpoint; the entry is `mkCand` of a sighting
that attains the minimal (squared) angular distance among all sightings of
that viewpoint, and every sighting processed before it is strictly farther —
i.e. a later sighting replaced an earlier one only when strictly closer. -/
theorem c1_unique_min_entry (ctx : MCCtx) (vp : String)
    (h2 : ∃ e1 ∈ (allEvents ctx).filter (fun ev => decide (eventVp ev = vp)),
          ∃ e2 ∈ (allEvents ctx).filter (fun ev => decide (eventVp ev = vp)), e1.1 ≠ e2.1) :
    ((makeCandidateMiss ctx).filter fun c => decide (c.viewpointId = vp)).length = 1
      ∧ ∃ ev, lookupA (buildAdjDict ctx) vp = some (mkCandE ctx ev)
          ∧ eventVp ev = vp
          ∧ BestAt ((allEvents ctx).filter fun e => decide (eventVp e = vp)) ev := by
  obtain ⟨e1, he1, e2, _, _⟩ := h2
  have hne2 : (allEvents ctx).filter (fun ev => decide (eventVp ev = vp)) ≠ [] := by
    intro hnil
    rw [hnil] at he1
    cases he1
  obtain ⟨e, hbest⟩ := bestEvent_ne_none _ hne2
  have hlook := lookupA_buildAdjDict ctx vp
  rw [hbest] at hlook
  constructor
  · unfold makeCandidateMiss
    rw [count_filter_values vp _ (buildAdjDict_wf ctx), hlook]
    rfl
  · refine ⟨e, hlook, ?_, bestEvent_spec _ _ hbest⟩
    obtain ⟨i, hget, -, -⟩ := bestEvent_spec _ _ hbest
    have hmem : e ∈ (allEvents ctx).filter (fun ev => decide (eventVp ev = vp)) :=
      List.get?_mem hget
    exact of_decide_eq_true (List.mem_filter.1 hmem).2

/-- Witness context for C1: viewpoint `"A"` is sighted from orientations 0
(squared distance 25) and 1 (squared distance 1). -/
def c1Ctx : MCCtx :=
  { angleFeat := fun h e => [h, e]
    feature := fun ix => [(ix : ℚ)]
    states := fun ix =>
      if ix = 0 then
        { heading := 5, elevation := 0,
          navigableLocations := [⟨"self", 0, 0, 0, 0, 0⟩, ⟨"A", 3, 4, 0, 0, 0⟩] }
      else if ix = 1 then
        { heading := 9, elevation := 0,
          navigableLocations := [⟨"self", 0, 0, 0, 0, 0⟩, ⟨"A", 0, 1, 0, 0, 0⟩] }
      else { heading := 0, elevation := 0, navigableLocations := [] }
    scanId := "sc"
    viewId := 0
    rad30 := 1 }

/-- Witness for C1 at the concrete two-sighting context. -/
theorem c1_unique_min_entry_witness :
    (∃ e1 ∈ (allEvents c1Ctx).filter (fun ev => decide (eventVp ev = "A")),
        ∃ e2 ∈ (allEvents c1Ctx).filter (fun ev => decide (eventVp ev = "A")), e1.1 ≠ e2.1)
      ∧ (((makeCandidateMiss c1Ctx).filter fun c => decide (c.viewpointId = "A")).length = 1
          ∧ ∃ ev, lookupA (buildAdjDict c1Ctx) "A" = some (mkCandE c1Ctx ev)
              ∧ eventVp ev = "A"
              ∧ BestAt ((allEvents c1Ctx).filter fun e => decide (eventVp e = "A")) ev) :=
  ⟨by decide, c1_unique_min_entry c1Ctx "A" (by decide)⟩

/-- Values stored in a candidate dict. -/
inductive PyVal where
  | q (x : ℚ)
  | s (x : String)
  | n (x : ℕ)
  | arr (xs : List ℚ)
  | pos (p : ℚ × ℚ × ℚ)
deriving DecidableEq

/-- A Python dict with string keys, as an insertion-ordered assoc list. -/
abbrev PyDict := List (String × PyVal)

/-- The full entry dict returned on the cache-miss path (lines 257-269),
keys in source insertion order. -/
def toMissDict (c : Cand) : PyDict :=
  [("heading", PyVal.q c.heading), ("elevation", PyVal.q c.elevation),
   ("normalized_heading", PyVal.q c.normalized_heading),
   ("normalized_elevation", PyVal.q c.normalized_elevation),
   ("scanId", PyVal.s c.scanId), ("viewpointId", PyVal.s c.viewpointId),
   ("pointId", PyVal.n c.pointId), ("distance", PyVal.q c.distance),
   ("idx", PyVal.n c.idx), ("feature", PyVal.arr c.feature),
   ("position", PyVal.pos c.position)]

/-- The buffered subset stored in `buffered_state_dict` (lines 271-277). -/
def toBufDict (c : Cand) : PyDict :=
  [("normalized_heading", PyVal.q c.normalized_heading),
   ("normalized_elevation", PyVal.q c.normalized_elevation),
   ("scanId", PyVal.s c.scanId), ("viewpointId", PyVal.s c.viewpointId),
   ("pointId", PyVal.n c.pointId), ("idx", PyVal.n c.idx),
   ("position", PyVal.pos c.position)]

/-- The cache-hit per-entry transformation (lines 282-292): re-derive
heading/elevation from the normalized values and the caller's base
orientation, rebuild the fused feature, and pop the two normalized keys.
The fallback arms of the matches model Python's dynamic typing and are
unreachable on dicts produced by `toBufDict`. -/
def hitEntry (ctx : MCCtx) (b : PyDict) : PyDict :=
  let ixv := match lookupA b ("pointId") with
    | some (PyVal.n i) => i
    | _ => 0
  let nh := match lookupA b ("normalized_heading") with
    | some (PyVal.q x) => x
    | _ => 0
  let ne2 := match lookupA b ("normalized_elevation") with
    | some (PyVal.q x) => x
    | _ => 0
  let heading := nh - baseHeading ctx
  let elevation := ne2 - baseElevation ctx
  let b1 := updateA b ("heading") (PyVal.q heading)
  let b2 := updateA b1 ("elevation") (PyVal.q elevation)
  let b3 := updateA b2 ("feature")
    (PyVal.arr (ctx.feature ixv ++ ctx.angleFeat heading elevation))
  b3.filter fun kv =>
    decide (kv.1 ≠ "normalized_heading") && decide (kv.1 ≠ "normalized_elevation")

/-- Embedding of `make_candidate` (lines 219-293): the pair is (returned
candidate list, value buffered under `scan_viewpoint`).  `cache = none` is
the miss path (lines 227-278); `cache = some buffered` the hit path
(lines 279-293), which maps `hitEntry` over the buffered entries and leaves
the buffer as is. -/
def make_candidate (ctx : MCCtx) (cache : Option (List PyDict)) : List PyDict × List PyDict :=
  match cache with
  | none => ((makeCandidateMiss ctx).map toMissDict, (makeCandidateMiss ctx).map toBufDict)
  | some buffered => (buffered.map (hitEntry ctx), buffered)

/-- Every value in the built `adj_dict` is the rendering of some sighting. -/
theorem mem_foldl_adjStep (ctx : MCCtx) (evs : List MCEvent)
    (adj : List (String × Cand)) (kv : String × Cand)
    (h : kv ∈ evs.foldl (adjStep ctx) adj) :
    kv ∈ adj ∨ ∃ ev, kv.2 = mkCandE ctx ev := by
  induction evs generalizing adj with
  | nil => exact Or.inl h
  | cons ev rest ih =>
    rw [List.foldl_cons] at h
    rcases ih _ h with hstep | hex
    · unfold adjStep at hstep
      cases hl : lookupA adj (eventVp ev) with
      | none =>
        rw [hl] at hstep
        rcases mem_updateA _ _ _ _ hstep with hmem | rfl
        · exact Or.inl hmem
        · exact Or.inr ⟨ev, rfl⟩
      | some c =>
        rw [hl] at hstep
        dsimp only at hstep
        by_cases hd : evDist ev < c.distance
        · rw [if_pos hd] at hstep
          rcases mem_updateA _ _ _ _ hstep with hmem | rfl
          · exact Or.inl hmem
          · exact Or.inr ⟨ev, rfl⟩
        · rw [if_neg hd] at hstep
          exact Or.inl hstep
    · exact Or.inr hex

theorem mem_makeCandidateMiss (ctx : MCCtx) (c : Cand) (hc : c ∈ makeCandidateMiss ctx) :
    ∃ ev, c = mkCandE ctx ev := by
  unfold makeCandidateMiss at hc
  rcases List.mem_map.1 hc with ⟨kv, hkv, rfl⟩
  rw [buildAdjDict_eq_fold_events] at hkv
  rcases mem_foldl_adjStep ctx _ [] kv hkv with hnil | ⟨ev, hev⟩
  · cases hnil
  · exact ⟨ev, hev⟩

/-- Evaluation of the hit-path transformation on a buffered entry: the two
normalized keys are popped, heading/elevation/feature are appended. -/
theorem hitEntry_toBufDict (ctx : MCCtx) (c : Cand) :
    hitEntry ctx (toBufDict c) =
      [("scanId", PyVal.s c.scanId), ("viewpointId", PyVal.s c.viewpointId),
       ("pointId", PyVal.n c.pointId), ("idx", PyVal.n c.idx),
       ("position", PyVal.pos c.position),
       ("heading", PyVal.q (c.normalized_heading - baseHeading ctx)),
       ("elevation", PyVal.q (c.normalized_elevation - baseElevation ctx)),
       ("feature", PyVal.arr (ctx.feature c.pointId ++
          ctx.angleFeat (c.normalized_heading - baseHeading ctx)
            (c.normalized_elevation - baseElevation ctx)))] := rfl

theorem mkCandE_norm_heading (ctx : MCCtx) (ev : MCEvent) :
    (mkCandE ctx ev).normalized_heading - baseHeading ctx = (mkCandE ctx ev).heading := by
  unfold mkCandE mkCand
  dsimp only
  ring

theorem mkCandE_norm_elevation (ctx : MCCtx) (ev : MCEvent) :
    (mkCandE ctx ev).normalized_elevation - baseElevation ctx = (mkCandE ctx ev).elevation := by
  unfold mkCandE mkCand
  dsimp only
  ring

theorem mkCandE_feature (ctx : MCCtx) (ev : MCEvent) :
    ctx.feature (mkCandE ctx ev).pointId ++
        ctx.angleFeat ((mkCandE ctx ev).normalized_heading - baseHeading ctx)
          ((mkCandE ctx ev).normalized_elevation - baseElevation ctx)
      = (mkCandE ctx ev).feature := by
  unfold mkCandE mkCand
  dsimp only
  have e1 : (ctx.states ev.1).heading + ev.2.2.relHeading - baseHeading ctx
      = (ctx.states ev.1).heading - baseHeading ctx + ev.2.2.relHeading := by ring
  have e2 : (ctx.states ev.1).elevation + ev.2.2.relElevation - baseElevation ctx
      = (ctx.states ev.1).elevation - baseElevation ctx + ev.2.2.relElevation := by ring
  rw [e1, e2]

/-- C2 amended: for identical inputs (same features, scan, viewpoint, view
index), the cache-hit path reproduces the cache-miss path entry for entry in
the same order and with equal values on every field both carry (`heading`,
`elevation`, `scanId`, `viewpointId`, `pointId`, `idx`, `feature`,
`position`) — but the lists are NOT bit-identical: each miss-path entry
additionally carries `distance`, `normalized_heading` and
`normalized_elevation`, which the hit-path entries lack. -/
theorem c2_amended (ctx : MCCtx) (i : ℕ) (d1 d2 : PyDict)
    (h1 : (make_candidate ctx none).1.get? i = some d1)
    (h2 : (make_candidate ctx (some (make_candidate ctx none).2)).1.get? i = some d2) :
    (∀ k ∈ (["heading", "elevation", "scanId", "viewpointId", "pointId", "idx",
        "feature", "position"] : List String), lookupA d2 k = lookupA d1 k)
      ∧ lookupA d2 ("distance") = none
      ∧ (lookupA d1 ("distance")).isSome
      ∧ lookupA d2 ("normalized_heading") = none
      ∧ (lookupA d1 ("normalized_heading")).isSome
      ∧ lookupA d2 ("normalized_elevation") = none
      ∧ (lookupA d1 ("normalized_elevation")).isSome
      ∧ (make_candidate ctx (some (make_candidate ctx none).2)).1.length
          = (make_candidate ctx none).1.length := by
  have h1m : ((makeCandidateMiss ctx).map toMissDict).get? i = some d1 := h1
  have h2m : (((makeCandidateMiss ctx).map toBufDict).map (hitEntry ctx)).get? i
      = some d2 := h2
  rw [List.get?_map] at h1m
  rw [List.get?_map, List.get?_map] at h2m
  cases hc : (makeCandidateMiss ctx).get? i with
  | none =>
    rw [hc] at h1m
    cases h1m
  | some c =>
    rw [hc] at h1m h2m
    obtain rfl : toMissDict c = d1 := Option.some.inj h1m
    obtain rfl : hitEntry ctx (toBufDict c) = d2 := Option.some.inj h2m
    obtain ⟨ev, rfl⟩ := mem_makeCandidateMiss ctx c (List.get?_mem hc)
    rw [hitEntry_toBufDict]
    refine ⟨?_, rfl, rfl, rfl, rfl, rfl, rfl, by simp [make_candidate]⟩
    intro k hk
    fin_cases hk
    · show some (PyVal.q ((mkCandE ctx ev).normalized_heading - baseHeading ctx))
        = some (PyVal.q (mkCandE ctx ev).heading)
      rw [mkCandE_norm_heading]
    · show some (PyVal.q ((mkCandE ctx ev).normalized_elevation - baseElevation ctx))
        = some (PyVal.q (mkCandE ctx ev).elevation)
      rw [mkCandE_norm_elevation]
    · rfl
    · rfl
    · rfl
    · rfl
    · show some (PyVal.arr (ctx.feature (mkCandE ctx ev).pointId ++
          ctx.angleFeat ((mkCandE ctx ev).normalized_heading - baseHeading ctx)
            ((mkCandE ctx ev).normalized_elevation - baseElevation ctx)))
        = some (PyVal.arr (mkCandE ctx ev).feature)
      rw [mkCandE_feature]
    · rfl

/-- The concrete miss-path entry for `c1Ctx` (sighting of `"A"` from
orientation 1). -/
def c2MissEntry : PyDict :=
  [("heading", PyVal.q 9), ("elevation", PyVal.q 2),
   ("normalized_heading", PyVal.q 9), ("normalized_elevation", PyVal.q 1),
   ("scanId", PyVal.s "sc"), ("viewpointId", PyVal.s "A"),
   ("pointId", PyVal.n 1), ("distance", PyVal.q 1), ("idx", PyVal.n 1),
   ("feature", PyVal.arr [1, 9, 2]), ("position", PyVal.pos (0, 0, 0))]

/-- The corresponding cache-hit entry for `c1Ctx`: same shared values, but
no `distance` and no normalized fields. -/
def c2HitEntry : PyDict :=
  [("scanId", PyVal.s "sc"), ("viewpointId", PyVal.s "A"), ("pointId", PyVal.n 1),
   ("idx", PyVal.n 1), ("position", PyVal.pos (0, 0, 0)), ("heading", PyVal.q 9),
   ("elevation", PyVal.q 2), ("feature", PyVal.arr [1, 9, 2])]

/-- C2 counterexample: at a concrete (feature, scan, viewpoint, view index)
the second (cache-hit) call does not return a bit-identical candidate list:
the first call's entry carries a `distance` key that the second call's entry
lacks, so the per-entry field sets differ and the lists are unequal. -/
theorem c2_counterexample :
    (make_candidate c1Ctx none).1.get? 0 = some c2MissEntry
      ∧ (make_candidate c1Ctx (some (make_candidate c1Ctx none).2)).1.get? 0
          = some c2HitEntry
      ∧ lookupA c2MissEntry ("distance") = some (PyVal.q 1)
      ∧ lookupA c2HitEntry ("distance") = none
      ∧ (make_candidate c1Ctx (some (make_candidate c1Ctx none).2)).1
          ≠ (make_candidate c1Ctx none).1 := by
  have he1 : (make_candidate c1Ctx none).1.get? 0 = some c2MissEntry := by
    with_unfolding_all rfl
  have he2 : (make_candidate c1Ctx (some (make_candidate c1Ctx none).2)).1.get? 0
      = some c2HitEntry := by
    with_unfolding_all rfl
  refine ⟨he1, he2, rfl, rfl, ?_⟩
  intro heq
  have h0 : some c2HitEntry = some c2MissEntry := by
    rw [← he1, ← he2, heq]
  have h1 : lookupA c2HitEntry ("distance") = lookupA c2MissEntry ("distance") := by
    rw [Option.some.inj h0]
  rw [show lookupA c2HitEntry ("distance") = none from rfl,
    show lookupA c2MissEntry ("distance") = some (PyVal.q 1) from rfl] at h1
  cases h1

/-- Witness for C2 amended at the concrete context. -/
theorem c2_amended_witness :
    (make_candidate c1Ctx none).1.get? 0 = some c2MissEntry
      ∧ (make_candidate c1Ctx (some (make_candidate c1Ctx none).2)).1.get? 0
          = some c2HitEntry
      ∧ lookupA c2HitEntry ("heading") = lookupA c2MissEntry ("heading")
      ∧ lookupA c2HitEntry ("distance") = none
      ∧ (lookupA c2MissEntry ("distance")).isSome :=
  ⟨by with_unfolding_all rfl, by with_unfolding_all rfl,
    (c2_amended c1Ctx 0 c2MissEntry c2HitEntry (by with_unfolding_all rfl)
      (by with_unfolding_all rfl)).1 ("heading") (by decide),
    (c2_amended c1Ctx 0 c2MissEntry c2HitEntry (by with_unfolding_all rfl)
      (by with_unfolding_all rfl)).2.1,
    (c2_amended c1Ctx 0 c2MissEntry c2HitEntry (by with_unfolding_all rfl)
      (by with_unfolding_all rfl)).2.2.1⟩

/-! ### Navigation Graph Builder: `load_nav_graphs_new` (env.py lines 472-500)

One scan's connectivity record is a list of nodes, each with its `image_id`,
`included` flag, boolean adjacency row `unobstructed` and 16-entry `pose`.
The `positions`/`vppos` side tables built alongside do not affect the graph
and are omitted.  Edge weights are the squared Euclidean distance (the
source takes `**0.5`; equality of nonnegative distances coincides with
equality of their squares). -/

/-- One entry of a `*_connectivity.json` record. -/
structure ConnNode where
  image_id : String
  included : Bool
  unobstructed : List Bool
  pose : List ℚ
deriving DecidableEq

/-- Squared `distance(pose1, pose2)` (lines 477-481), using pose entries
3, 7 and 11. -/
def poseDistSq (a b : ConnNode) : ℚ :=
  (a.pose.getD 3 0 - b.pose.getD 3 0) ^ 2 + (a.pose.getD 7 0 - b.pose.getD 7 0) ^ 2
    + (a.pose.getD 11 0 - b.pose.getD 11 0) ^ 2

theorem poseDistSq_comm (a b : ConnNode) : poseDistSq a b = poseDistSq b a := by
  unfold poseDistSq
  ring

/-- An undirected weighted graph as a keyed edge list (networkx `Graph`):
an edge is keyed by its unordered endpoint pair, normalized by `≤`. -/
abbrev EGraph := List ((String × String) × ℚ)

/-- Normalized unordered key of an edge. -/
def ekey (u v : String) : String × String := if u ≤ v then (u, v) else (v, u)

theorem ekey_comm (u v : String) : ekey u v = ekey v u := by
  unfold ekey
  rcases le_total u v with h | h
  · rw [if_pos h]
    by_cases h2 : v ≤ u
    · rw [if_pos h2]
      rw [le_antisymm h h2]
    · rw [if_neg h2]
  · rw [if_pos h]
    by_cases h2 : u ≤ v
    · rw [if_pos h2]
      rw [le_antisymm h h2]
    · rw [if_neg h2]

theorem ekey_eq_cases (u v x y : String) (h : ekey u v = ekey x y) :
    (u = x ∧ v = y) ∨ (u = y ∧ v = x) := by
  unfold ekey at h
  by_cases h1 : u ≤ v <;> by_cases h2 : x ≤ y
  · rw [if_pos h1, if_pos h2] at h
    exact Or.inl ⟨congrArg Prod.fst h, congrArg Prod.snd h⟩
  · rw [if_pos h1, if_neg h2] at h
    exact Or.inr ⟨congrArg Prod.fst h, congrArg Prod.snd h⟩
  · rw [if_neg h1, if_pos h2] at h
    exact Or.inr ⟨congrArg Prod.snd h, congrArg Prod.fst h⟩
  · rw [if_neg h1, if_neg h2] at h
    exact Or.inl ⟨congrArg Prod.snd h, congrArg Prod.fst h⟩

/-- `G.add_edge(u, v, weight=w)`: keyed overwrite (re-adding an edge
replaces its weight, as in networkx). -/
def putEdge (g : EGraph) (u v : String) (w : ℚ) : EGraph := updateA g (ekey u v) w

/-- Edge lookup, unordered. -/
def getEdge (g : EGraph) (u v : String) : Option ℚ := lookupA g (ekey u v)

theorem getEdge_comm (g : EGraph) (u v : String) : getEdge g u v = getEdge g v u := by
  unfold getEdge
  rw [ekey_comm]

/-- The inner loop `for j, conn in enumerate(item['unobstructed'])`
(lines 491-497), starting at column `j`: when `conn` holds, `data[j]` is
read (`none` models the IndexError on a short record); if that node is
included, the reverse adjacency `data[j]['unobstructed'][i]` is asserted
(`none` on failure, modelling the fatal
`assert ..., 'Graph should be undirected'`) and the edge is added. -/
def processRow (data : List ConnNode) (i : ℕ) (item : ConnNode) :
    ℕ → List Bool → EGraph → Option EGraph
  | _, [], g => some g
  | j, conn :: rest, g =>
    if conn then
      match data.get? j with
      | none => none
      | some nj =>
        if nj.included then
          if nj.unobstructed.getD i false then
            processRow data i item (j + 1) rest
              (putEdge g item.image_id nj.image_id (poseDistSq item nj))
          else none
        else processRow data i item (j + 1) rest g
    else processRow data i item (j + 1) rest g

/-- The outer loop `for i, item in enumerate(data)` (lines 489-497). -/
def loadGo (data : List ConnNode) : ℕ → List ConnNode → EGraph → Option EGraph
  | _, [], g => some g
  | i, item :: rest, g =>
    if item.included then
      match processRow data i item 0 item.unobstructed g with
      | none => none
      | some g2 => loadGo data (i + 1) rest g2
    else loadGo data (i + 1) rest g

/-- Embedding of `load_nav_graphs_new` for one scan's record. -/
def load_nav_graphs_new (data : List ConnNode) : Option EGraph :=
  loadGo data 0 data []

/-- The edges a row adds, in order (proof artifact). -/
def rowEvents (data : List ConnNode) (item : ConnNode) :
    ℕ → List Bool → List (String × String × ℚ)
  | _, [] => []
  | j, conn :: rest =>
    (if conn then
      match data.get? j with
      | some nj =>
        if nj.included then [(item.image_id, nj.image_id, poseDistSq item nj)] else []
      | none => []
     else []) ++ rowEvents data item (j + 1) rest

/-- The edges the whole sweep adds, in order (proof artifact). -/
def loadEvents (data : List ConnNode) : List ConnNode → List (String × String × ℚ)
  | [] => []
  | item :: rest =>
    (if item.included then rowEvents data item 0 item.unobstructed else [])
      ++ loadEvents data rest

/-- A successful row run equals the fold of its edge events. -/
theorem processRow_eq_fold (data : List ConnNode) (i : ℕ) (item : ConnNode) :
    ∀ (row : List Bool) (j : ℕ) (g g2 : EGraph),
      processRow data i item j row g = some g2 →
      g2 = (rowEvents data item j row).foldl (fun g e => putEdge g e.1 e.2.1 e.2.2) g := by
  intro row
  induction row with
  | nil =>
    intro j g g2 h
    obtain rfl := Option.some.inj h
    rfl
  | cons conn rest ih =>
    intro j g g2 h
    simp only [processRow] at h
    simp only [rowEvents]
    by_cases hc : conn = true
    · rw [if_pos hc] at h
      rw [if_pos hc]
      cases hj : data.get? j with
      | none =>
        rw [hj] at h
        dsimp only at h
        cases h
      | some nj =>
        rw [hj] at h
        dsimp only at h ⊢
        by_cases hincl : nj.included = true
        · rw [if_pos hincl] at h
          rw [if_pos hincl]
          by_cases hassert : nj.unobstructed.getD i false = true
          · rw [if_pos hassert] at h
            rw [List.singleton_append, List.foldl_cons]
            exact ih (j + 1) _ g2 h
          · rw [if_neg hassert] at h
            cases h
        · rw [if_neg hincl] at h
          rw [if_neg hincl, List.nil_append]
          exact ih (j + 1) g g2 h
    · rw [if_neg hc] at h
      rw [if_neg hc, List.nil_append]
      exact ih (j + 1) g g2 h

/-- A successful sweep equals the fold of all its edge events. -/
theorem loadGo_eq_fold (data : List ConnNode) :
    ∀ (rest : List ConnNode) (i : ℕ) (g G : EGraph),
      loadGo data i rest g = some G →
      G = (loadEvents data rest).foldl (fun g e => putEdge g e.1 e.2.1 e.2.2) g := by
  intro rest
  induction rest with
  | nil =>
    intro i g G h
    obtain rfl := Option.some.inj h
    rfl
  | cons item rest2 ih =>
    intro i g G h
    simp only [loadGo] at h
    simp only [loadEvents]
    by_cases hincl : item.included = true
    · rw [if_pos hincl] at h
      rw [if_pos hincl]
      cases hp : processRow data i item 0 item.unobstructed g with
      | none =>
        rw [hp] at h
        cases h
      | some g2 =>
        rw [hp] at h
        dsimp only at h
        rw [List.foldl_append]
        rw [← processRow_eq_fold data i item item.unobstructed 0 g g2 hp]
        exact ih (i + 1) g2 G h
    · rw [if_neg hincl] at h
      rw [if_neg hincl, List.nil_append]
      exact ih (i + 1) g G h

/-- A successful row run passed every reverse-adjacency assertion it
visited. -/
theorem processRow_some_assert (data : List ConnNode) (i : ℕ) (item : ConnNode) :
    ∀ (row : List Bool) (j : ℕ) (g g2 : EGraph),
      processRow data i item j row g = some g2 →
      ∀ (jj : ℕ) (hjj : jj < row.length), row.get ⟨jj, hjj⟩ = true →
        ∀ nj, data.get? (j + jj) = some nj → nj.included = true →
          nj.unobstructed.getD i false = true := by
  intro row
  induction row with
  | nil =>
    intro j g g2 _ jj hjj
    exact absurd hjj (by simp)
  | cons conn rest ih =>
    intro j g g2 h jj hjj hconn nj hnj hincl
    simp only [processRow] at h
    cases jj with
    | zero =>
      have hc : conn = true := hconn
      rw [if_pos hc] at h
      rw [Nat.add_zero] at hnj
      rw [hnj] at h
      dsimp only at h
      rw [if_pos hincl] at h
      by_cases hassert : nj.unobstructed.getD i false = true
      · exact hassert
      · rw [if_neg hassert] at h
        cases h
    | succ jj2 =>
      have hjj2 : jj2 < rest.length := Nat.lt_of_succ_lt_succ hjj
      have hconn2 : rest.get ⟨jj2, hjj2⟩ = true := hconn
      have hnj2 : data.get? (j + 1 + jj2) = some nj := by
        rw [show j + 1 + jj2 = j + (jj2 + 1) from by omega]
        exact hnj
      by_cases hc : conn = true
      · rw [if_pos hc] at h
        cases hj : data.get? j with
        | none =>
          rw [hj] at h
          dsimp only at h
          cases h
        | some nj0 =>
          rw [hj] at h
          dsimp only at h
          by_cases hincl0 : nj0.included = true
          · rw [if_pos hincl0] at h
            by_cases hassert0 : nj0.unobstructed.getD i false = true
            · rw [if_pos hassert0] at h
              exact ih (j + 1) _ g2 h jj2 hjj2 hconn2 nj hnj2 hincl
            · rw [if_neg hassert0] at h
              cases h
          · rw [if_neg hincl0] at h
            exact ih (j + 1) g g2 h jj2 hjj2 hconn2 nj hnj2 hincl
      · rw [if_neg hc] at h
        exact ih (j + 1) g g2 h jj2 hjj2 hconn2 nj hnj2 hincl

/-- A successful sweep ran every included item's row successfully. -/
theorem loadGo_some_rows (data : List ConnNode) :
    ∀ (rest : List ConnNode) (i : ℕ) (g G : EGraph),
      loadGo data i rest g = some G →
      ∀ (k : ℕ) (hk : k < rest.length), (rest.get ⟨k, hk⟩).included = true →
        ∃ g1 g2, processRow data (i + k) (rest.get ⟨k, hk⟩) 0
          (rest.get ⟨k, hk⟩).unobstructed g1 = some g2 := by
  intro rest
  induction rest with
  | nil =>
    intro i g G _ k hk
    exact absurd hk (by simp)
  | cons item rest2 ih =>
    intro i g G h k hk hincl
    simp only [loadGo] at h
    cases k with
    | zero =>
      have hincl0 : item.included = true := hincl
      rw [if_pos hincl0] at h
      cases hp : processRow data i item 0 item.unobstructed g with
      | none =>
        rw [hp] at h
        cases h
      | some g2 =>
        exact ⟨g, g2, hp⟩
    | succ k2 =>
      have hk2 : k2 < rest2.length := Nat.lt_of_succ_lt_succ hk
      have hincl2 : (rest2.get ⟨k2, hk2⟩).included = true := hincl
      have hshift : i + (k2 + 1) = (i + 1) + k2 := by omega
      by_cases hi : item.included = true
      · rw [if_pos hi] at h
        cases hp : processRow data i item 0 item.unobstructed g with
        | none =>
          rw [hp] at h
          cases h
        | some g2 =>
          rw [hp] at h
          dsimp only at h
          rw [hshift]
          exact ih (i + 1) g2 G h k2 hk2 hincl2
      · rw [if_neg hi] at h
        rw [hshift]
        exact ih (i + 1) g G h k2 hk2 hincl2

/-- A row whose visited lookups and assertions all succeed returns a graph. -/
theorem processRow_isSome (data : List ConnNode) (i : ℕ) (item : ConnNode) :
    ∀ (row : List Bool) (j : ℕ) (g : EGraph),
      (∀ (jj : ℕ) (hjj : jj < row.length), row.get ⟨jj, hjj⟩ = true →
        ∃ nj, data.get? (j + jj) = some nj
          ∧ (nj.included = true → nj.unobstructed.getD i false = true)) →
      ∃ g2, processRow data i item j row g = some g2 := by
  intro row
  induction row with
  | nil =>
    intro j g _
    exact ⟨g, rfl⟩
  | cons conn rest ih =>
    intro j g hok
    simp only [processRow]
    have hok2 : ∀ (jj : ℕ) (hjj : jj < rest.length), rest.get ⟨jj, hjj⟩ = true →
        ∃ nj, data.get? (j + 1 + jj) = some nj
          ∧ (nj.included = true → nj.unobstructed.getD i false = true) := by
      intro jj hjj hc
      have := hok (jj + 1) (Nat.succ_lt_succ hjj) hc
      rwa [show j + (jj + 1) = j + 1 + jj from by omega] at this
    by_cases hc : conn = true
    · rw [if_pos hc]
      obtain ⟨nj, hnj, hassert⟩ := hok 0 (by simp) hc
      rw [Nat.add_zero] at hnj
      rw [hnj]
      dsimp only
      by_cases hincl : nj.included = true
      · rw [if_pos hincl, if_pos (hassert hincl)]
        exact ih (j + 1) _ hok2
      · rw [if_neg hincl]
        exact ih (j + 1) g hok2
    · rw [if_neg hc]
      exact ih (j + 1) g hok2

/-- A sweep whose rows all satisfy the row conditions returns a graph. -/
theorem loadGo_isSome (data : List ConnNode) :
    ∀ (rest : List ConnNode) (i : ℕ) (g : EGraph),
      (∀ (k : ℕ) (hk : k < rest.length), (rest.get ⟨k, hk⟩).included = true →
        ∀ (jj : ℕ) (hjj : jj < (rest.get ⟨k, hk⟩).unobstructed.length),
          (rest.get ⟨k, hk⟩).unobstructed.get ⟨jj, hjj⟩ = true →
          ∃ nj, data.get? jj = some nj
            ∧ (nj.included = true → nj.unobstructed.getD (i + k) false = true)) →
      ∃ G, loadGo data i rest g = some G := by
  intro rest
  induction rest with
  | nil =>
    intro i g _
    exact ⟨g, rfl⟩
  | cons item rest2 ih =>
    intro i g hok
    simp only [loadGo]
    have hok2 : ∀ (k : ℕ) (hk : k < rest2.length), (rest2.get ⟨k, hk⟩).included = true →
        ∀ (jj : ℕ) (hjj : jj < (rest2.get ⟨k, hk⟩).unobstructed.length),
          (rest2.get ⟨k, hk⟩).unobstructed.get ⟨jj, hjj⟩ = true →
          ∃ nj, data.get? jj = some nj
            ∧ (nj.included = true → nj.unobstructed.getD (i + 1 + k) false = true) := by
      intro k hk hincl jj hjj hc
      have := hok (k + 1) (Nat.succ_lt_succ hk) hincl jj hjj hc
      rwa [show i + (k + 1) = i + 1 + k from by omega] at this
    by_cases hi : item.included = true
    · rw [if_pos hi]
      have hrowok : ∀ (jj : ℕ) (hjj : jj < item.unobstructed.length),
          item.unobstructed.get ⟨jj, hjj⟩ = true →
          ∃ nj, data.get? (0 + jj) = some nj
            ∧ (nj.included = true → nj.unobstructed.getD i false = true) := by
        intro jj hjj hc
        rw [Nat.zero_add]
        have := hok 0 (by simp) hi jj hjj hc
        rwa [Nat.add_zero] at this
      obtain ⟨g2, hg2⟩ := processRow_isSome data i item item.unobstructed 0 g hrowok
      rw [hg2]
      dsimp only
      exact ih (i + 1) g2 hok2
    · rw [if_neg hi]
      exact ih (i + 1) g hok2

/-- The last element of a list satisfying `p` (later elements win), matching
the overwrite behaviour of repeated keyed insertion. -/
def lastMatch (p : (String × String × ℚ) → Bool) :
    List (String × String × ℚ) → Option (String × String × ℚ)
  | [] => none
  | e :: rest =>
    match lastMatch p rest with
    | some r => some r
    | none => if p e then some e else none

theorem lastMatch_eq_none_iff (p : (String × String × ℚ) → Bool)
    (l : List (String × String × ℚ)) :
    lastMatch p l = none ↔ ∀ e ∈ l, ¬ p e = true := by
  induction l with
  | nil => simp [lastMatch]
  | cons e rest ih =>
    simp only [lastMatch]
    cases hr : lastMatch p rest with
    | some r =>
      simp only []
      constructor
      · intro h
        cases h
      · intro hall
        rw [(ih.2 fun e2 he2 => hall e2 (List.mem_cons_of_mem _ he2))] at hr
        cases hr
    | none =>
      by_cases hp : p e = true
      · rw [if_pos hp]
        constructor
        · intro h
          cases h
        · intro hall
          exact absurd hp (hall e (List.mem_cons_self _ _))
      · rw [if_neg hp]
        simp only [true_iff]
        intro e2 he2
        rcases List.mem_cons.1 he2 with rfl | he3
        · exact hp
        · exact (ih.1 hr) e2 he3

theorem lastMatch_some (p : (String × String × ℚ) → Bool)
    (l : List (String × String × ℚ)) (e : String × String × ℚ)
    (h : lastMatch p l = some e) : e ∈ l ∧ p e = true := by
  induction l with
  | nil => cases h
  | cons e0 rest ih =>
    simp only [lastMatch] at h
    cases hr : lastMatch p rest with
    | some r =>
      rw [hr] at h
      obtain rfl := Option.some.inj h
      obtain ⟨hmem, hp⟩ := ih hr
      exact ⟨List.mem_cons_of_mem _ hmem, hp⟩
    | none =>
      rw [hr] at h
      dsimp only at h
      by_cases hp : p e0 = true
      · rw [if_pos hp] at h
        obtain rfl := Option.some.inj h
        exact ⟨List.mem_cons_self _ _, hp⟩
      · rw [if_neg hp] at h
        cases h

/-- Keyed-overwrite folding: the final lookup sees the last matching write,
or the initial graph. -/
theorem getEdge_foldl_putEdge (evs : List (String × String × ℚ)) :
    ∀ (g : EGraph) (u v : String),
      getEdge (evs.foldl (fun g e => putEdge g e.1 e.2.1 e.2.2) g) u v =
        match lastMatch (fun e => decide (ekey e.1 e.2.1 = ekey u v)) evs with
        | some e => some e.2.2
        | none => getEdge g u v := by
  induction evs with
  | nil =>
    intro g u v
    rfl
  | cons e rest ih =>
    intro g u v
    rw [List.foldl_cons, ih]
    simp only [lastMatch]
    cases hr : lastMatch (fun e => decide (ekey e.1 e.2.1 = ekey u v)) rest with
    | some r => rfl
    | none =>
      dsimp only
      unfold getEdge putEdge
      rw [lookupA_updateA]
      by_cases hm : ekey e.1 e.2.1 = ekey u v
      · rw [if_pos hm, if_pos (decide_eq_true hm)]
      · rw [if_neg hm, if_neg (by simp [hm])]

/-- Which edges a row contributes. -/
theorem mem_rowEvents (data : List ConnNode) (item : ConnNode) :
    ∀ (row : List Bool) (j : ℕ) (e : String × String × ℚ),
      e ∈ rowEvents data item j row ↔
        ∃ (jj : ℕ) (hjj : jj < row.length) (nj : ConnNode), row.get ⟨jj, hjj⟩ = true
          ∧ data.get? (j + jj) = some nj ∧ nj.included = true
          ∧ e = (item.image_id, nj.image_id, poseDistSq item nj) := by
  intro row
  induction row with
  | nil =>
    intro j e
    simp [rowEvents]
  | cons conn rest ih =>
    intro j e
    simp only [rowEvents, List.mem_append]
    constructor
    · intro h
      rcases h with hpre | hrec
      · by_cases hc : conn = true
        · rw [if_pos hc] at hpre
          cases hj : data.get? j with
          | none =>
            rw [hj] at hpre
            cases hpre
          | some nj =>
            rw [hj] at hpre
            dsimp only at hpre
            by_cases hincl : nj.included = true
            · rw [if_pos hincl] at hpre
              rcases List.mem_singleton.1 hpre with rfl
              exact ⟨0, by simp, nj, hc, by rw [Nat.add_zero]; exact hj, hincl, rfl⟩
            · rw [if_neg hincl] at hpre
              cases hpre
        · rw [if_neg hc] at hpre
          cases hpre
      · obtain ⟨jj, hjj, nj, hget, hdata, hincl, he⟩ := (ih (j + 1) e).1 hrec
        refine ⟨jj + 1, Nat.succ_lt_succ hjj, nj, hget, ?_, hincl, he⟩
        rwa [show j + (jj + 1) = j + 1 + jj from by omega]
    · rintro ⟨jj, hjj, nj, hget, hdata, hincl, rfl⟩
      cases jj with
      | zero =>
        left
        have hc : conn = true := hget
        rw [if_pos hc]
        rw [Nat.add_zero] at hdata
        rw [hdata]
        dsimp only
        rw [if_pos hincl]
        exact List.mem_singleton.2 rfl
      | succ jj2 =>
        right
        refine (ih (j + 1) _).2 ⟨jj2, Nat.lt_of_succ_lt_succ hjj, nj, hget, ?_, hincl, rfl⟩
        rwa [show j + 1 + jj2 = j + (jj2 + 1) from by omega]

/-- Which edges the sweep contributes. -/
theorem mem_loadEvents (data : List ConnNode) :
    ∀ (rest : List ConnNode) (e : String × String × ℚ),
      e ∈ loadEvents data rest ↔
        ∃ (k : ℕ) (hk : k < rest.length), (rest.get ⟨k, hk⟩).included = true
          ∧ e ∈ rowEvents data (rest.get ⟨k, hk⟩) 0 (rest.get ⟨k, hk⟩).unobstructed := by
  intro rest
  induction rest with
  | nil =>
    intro e
    simp [loadEvents]
  | cons item rest2 ih =>
    intro e
    simp only [loadEvents, List.mem_append]
    constructor
    · intro h
      rcases h with hpre | hrec
      · by_cases hi : item.included = true
        · rw [if_pos hi] at hpre
          exact ⟨0, by simp, hi, hpre⟩
        · rw [if_neg hi] at hpre
          cases hpre
      · obtain ⟨k, hk, hincl, hmem⟩ := (ih e).1 hrec
        exact ⟨k + 1, Nat.succ_lt_succ hk, hincl, hmem⟩
    · rintro ⟨k, hk, hincl, hmem⟩
      cases k with
      | zero =>
        left
        have hi : item.included = true := hincl
        rw [if_pos hi]
        exact hmem
      | succ k2 =>
        right
        exact (ih e).2 ⟨k2, Nat.lt_of_succ_lt_succ hk, hincl, hmem⟩

theorem getD_eq_get {α : Type} (l : List α) (i : ℕ) (h : i < l.length) (d : α) :
    l.getD i d = l.get ⟨i, h⟩ := by
  rw [List.getD_eq_getD_get?, List.get?_eq_get h]
  rfl

/-- C8: for a well-formed connectivity record (square rows, distinct ids):
an asymmetric unobstructed entry between two included nodes makes the load
die on the `Graph should be undirected` assertion; and for a symmetric
adjacency matrix the load succeeds, the built graph is symmetric
(`edge(u,v) = edge(v,u)`, same weight by construction of the unordered edge
key), and an edge between two included nodes exists iff the adjacency is
marked unobstructed, with weight the (squared) 3D Euclidean distance
between the node poses. -/
theorem c8_graph (data : List ConnNode)
    (hlen : ∀ nd ∈ data, nd.unobstructed.length = data.length)
    (hids : (data.map fun nd => nd.image_id).Nodup) :
    (∀ (a b : ℕ) (ha : a < data.length) (hb : b < data.length),
        (data.get ⟨a, ha⟩).included = true → (data.get ⟨b, hb⟩).included = true →
        (data.get ⟨a, ha⟩).unobstructed.getD b false = true →
        (data.get ⟨b, hb⟩).unobstructed.getD a false = false →
        load_nav_graphs_new data = none)
      ∧ ((∀ (a b : ℕ) (ha : a < data.length) (hb : b < data.length),
            (data.get ⟨a, ha⟩).unobstructed.getD b false
              = (data.get ⟨b, hb⟩).unobstructed.getD a false) →
          ∃ G, load_nav_graphs_new data = some G
            ∧ (∀ u v, getEdge G u v = getEdge G v u)
            ∧ (∀ (a b : ℕ) (ha : a < data.length) (hb : b < data.length),
                getEdge G (data.get ⟨a, ha⟩).image_id (data.get ⟨b, hb⟩).image_id =
                  if (data.get ⟨a, ha⟩).included = true ∧ (data.get ⟨b, hb⟩).included = true
                      ∧ (data.get ⟨a, ha⟩).unobstructed.getD b false = true
                  then some (poseDistSq (data.get ⟨a, ha⟩) (data.get ⟨b, hb⟩))
                  else none)) := by
  have hinj : ∀ (a b : ℕ) (ha : a < data.length) (hb : b < data.length),
      (data.get ⟨a, ha⟩).image_id = (data.get ⟨b, hb⟩).image_id → a = b := by
    intro a b ha hb heq
    have ha2 : a < (data.map fun nd => nd.image_id).length := by
      rw [List.length_map]
      exact ha
    have hb2 : b < (data.map fun nd => nd.image_id).length := by
      rw [List.length_map]
      exact hb
    have hget : (data.map fun nd => nd.image_id).get ⟨a, ha2⟩
        = (data.map fun nd => nd.image_id).get ⟨b, hb2⟩ := by
      rw [List.get_map, List.get_map]
      exact heq
    have := (List.Nodup.get_inj_iff hids).1 hget
    exact Fin.mk.inj_iff.1 this
  constructor
  · intro a b ha hb hA hB hTrue hFalse
    cases hl : load_nav_graphs_new data with
    | none => rfl
    | some G =>
      exfalso
      unfold load_nav_graphs_new at hl
      obtain ⟨g1, g2, hrow⟩ := loadGo_some_rows data data 0 [] G hl a ha hA
      rw [Nat.zero_add] at hrow
      have hblen : b < (data.get ⟨a, ha⟩).unobstructed.length := by
        rw [hlen _ (List.get_mem data a ha)]
        exact hb
      have hbget : (data.get ⟨a, ha⟩).unobstructed.get ⟨b, hblen⟩ = true := by
        rw [← getD_eq_get _ _ hblen false]
        exact hTrue
      have hassert := processRow_some_assert data a (data.get ⟨a, ha⟩)
        (data.get ⟨a, ha⟩).unobstructed 0 g1 g2 hrow b hblen hbget
        (data.get ⟨b, hb⟩) (by rw [Nat.zero_add]; exact List.get?_eq_get hb) hB
      rw [hFalse] at hassert
      cases hassert
  · intro hsym
    have hok : ∀ (k : ℕ) (hk : k < data.length), (data.get ⟨k, hk⟩).included = true →
        ∀ (jj : ℕ) (hjj : jj < (data.get ⟨k, hk⟩).unobstructed.length),
          (data.get ⟨k, hk⟩).unobstructed.get ⟨jj, hjj⟩ = true →
          ∃ nj, data.get? jj = some nj
            ∧ (nj.included = true → nj.unobstructed.getD (0 + k) false = true) := by
      intro k hk _ jj hjj hc
      have hjlen : jj < data.length := by
        rw [← hlen _ (List.get_mem data k hk)]
        exact hjj
      refine ⟨data.get ⟨jj, hjlen⟩, List.get?_eq_get hjlen, fun _ => ?_⟩
      rw [Nat.zero_add, ← hsym k jj hk hjlen, getD_eq_get _ _ hjj false]
      exact hc
    obtain ⟨G, hG⟩ := loadGo_isSome data data 0 [] hok
    refine ⟨G, hG, fun u v => getEdge_comm G u v, ?_⟩
    intro a b ha hb
    have hfold := loadGo_eq_fold data data 0 [] G hG
    rw [hfold, getEdge_foldl_putEdge]
    have hdecode : ∀ r ∈ loadEvents data data,
        decide (ekey r.1 r.2.1
            = ekey (data.get ⟨a, ha⟩).image_id (data.get ⟨b, hb⟩).image_id) = true →
        ((data.get ⟨a, ha⟩).included = true ∧ (data.get ⟨b, hb⟩).included = true
            ∧ (data.get ⟨a, ha⟩).unobstructed.getD b false = true)
          ∧ r.2.2 = poseDistSq (data.get ⟨a, ha⟩) (data.get ⟨b, hb⟩) := by
      intro r hrmem hpr
      obtain ⟨k, hk, hinclk, hrow⟩ := (mem_loadEvents data data r).1 hrmem
      obtain ⟨jj, hjj, nj, hjget, hjdata, hjincl, hre⟩ :=
        (mem_rowEvents data (data.get ⟨k, hk⟩) (data.get ⟨k, hk⟩).unobstructed 0 r).1 hrow
      have hjlen : jj < data.length := by
        rw [← hlen _ (List.get_mem data k hk)]
        exact hjj
      have hjdata2 : data.get? (0 + jj) = some nj := hjdata
      rw [Nat.zero_add, List.get?_eq_get hjlen] at hjdata2
      obtain rfl : nj = data.get ⟨jj, hjlen⟩ := (Option.some.inj hjdata2).symm
      subst hre
      have hkey := of_decide_eq_true hpr
      dsimp only at hkey
      have hgetD : (data.get ⟨k, hk⟩).unobstructed.getD jj false = true := by
        rw [getD_eq_get _ _ hjj false]
        exact hjget
      rcases ekey_eq_cases _ _ _ _ hkey with ⟨h1, h2⟩ | ⟨h1, h2⟩
      · obtain rfl : k = a := hinj k a hk ha h1
        obtain rfl : jj = b := hinj jj b hjlen hb h2
        exact ⟨⟨hinclk, hjincl, hgetD⟩, rfl⟩
      · obtain rfl : k = b := hinj k b hk hb h1
        obtain rfl : jj = a := hinj jj a hjlen ha h2
        refine ⟨⟨hjincl, hinclk, ?_⟩, ?_⟩
        · rw [hsym jj k hjlen hk]
          exact hgetD
        · dsimp only
          rw [poseDistSq_comm]
    by_cases hcond : (data.get ⟨a, ha⟩).included = true ∧ (data.get ⟨b, hb⟩).included = true
        ∧ (data.get ⟨a, ha⟩).unobstructed.getD b false = true
    · rw [if_pos hcond]
      have hblen : b < (data.get ⟨a, ha⟩).unobstructed.length := by
        rw [hlen _ (List.get_mem data a ha)]
        exact hb
      have hbget : (data.get ⟨a, ha⟩).unobstructed.get ⟨b, hblen⟩ = true := by
        rw [← getD_eq_get _ _ hblen false]
        exact hcond.2.2
      have hmem : ((data.get ⟨a, ha⟩).image_id, (data.get ⟨b, hb⟩).image_id,
          poseDistSq (data.get ⟨a, ha⟩) (data.get ⟨b, hb⟩)) ∈ loadEvents data data := by
        refine (mem_loadEvents data data _).2 ⟨a, ha, hcond.1, ?_⟩
        refine (mem_rowEvents data (data.get ⟨a, ha⟩) (data.get ⟨a, ha⟩).unobstructed 0
          _).2 ⟨b, hblen, data.get ⟨b, hb⟩, hbget, ?_, hcond.2.1, rfl⟩
        rw [Nat.zero_add]
        exact List.get?_eq_get hb
      cases hlast : lastMatch (fun e => decide (ekey e.1 e.2.1
          = ekey (data.get ⟨a, ha⟩).image_id (data.get ⟨b, hb⟩).image_id))
          (loadEvents data data) with
      | none =>
        exfalso
        have hall := (lastMatch_eq_none_iff _ _).1 hlast
        exact hall _ hmem (decide_eq_true rfl)
      | some r =>
        dsimp only
        obtain ⟨hrmem, hrp⟩ := lastMatch_some _ _ r hlast
        rw [(hdecode r hrmem hrp).2]
    · rw [if_neg hcond]
      have hnone : lastMatch (fun e => decide (ekey e.1 e.2.1
          = ekey (data.get ⟨a, ha⟩).image_id (data.get ⟨b, hb⟩).image_id))
          (loadEvents data data) = none := by
        refine (lastMatch_eq_none_iff _ _).2 ?_
        intro e he hpe
        exact hcond (hdecode e he hpe).1
      rw [hnone]
      rfl

/-- Concrete symmetric 2-node connectivity record for C8. -/
def c8Data : List ConnNode :=
  [{ image_id := "u", included := true, unobstructed := [false, true],
     pose := [0, 0, 0, 1, 0, 0, 0, 2, 0, 0, 0, 3, 0, 0, 0, 0] },
   { image_id := "v", included := true, unobstructed := [true, false],
     pose := [0, 0, 0, 4, 0, 0, 0, 6, 0, 0, 0, 3, 0, 0, 0, 0] }]

/-- Witness for C8 at the concrete record. -/
theorem c8_graph_witness :
    (∀ nd ∈ c8Data, nd.unobstructed.length = c8Data.length)
      ∧ (c8Data.map fun nd => nd.image_id).Nodup
      ∧ ∃ G, load_nav_graphs_new c8Data = some G
          ∧ (∀ u v, getEdge G u v = getEdge G v u)
          ∧ (∀ (a b : ℕ) (ha : a < c8Data.length) (hb : b < c8Data.length),
              getEdge G (c8Data.get ⟨a, ha⟩).image_id (c8Data.get ⟨b, hb⟩).image_id =
                if (c8Data.get ⟨a, ha⟩).included = true
                    ∧ (c8Data.get ⟨b, hb⟩).included = true
                    ∧ (c8Data.get ⟨a, ha⟩).unobstructed.getD b false = true
                then some (poseDistSq (c8Data.get ⟨a, ha⟩) (c8Data.get ⟨b, hb⟩))
                else none) :=
  ⟨by decide, by decide, (c8_graph c8Data (by decide) (by decide)).2 (by
    intro a b ha hb
    have ha2 : a < 2 := ha
    have hb2 : b < 2 := hb
    interval_cases a <;> interval_cases b <;> rfl)⟩
